import Mathlib

/-!
Verification of the ronin meta-build tool (contexts.py, ninja.py, projects.py)
against its natural-language specification.

The Python sources are embedded shallowly:
* `Ctx` models `ronin.contexts.Context` chains (parent pointer, immutability
  flag, namespace → attribute-bag mapping).
* The ninja-file generator (`ronin.ninja.NinjaFile._write_rule`,
  `_get_inputs_from_names`) is modelled as a fuel-indexed state-passing
  function producing the sequence of lines handed to the writer.
* `_Writer.line` is modelled over `List Char` with Python `str.find` /
  `str.rfind` semantics.

Python exceptions are modelled with `Except`; all quantities in the source
are strings, lists and unbounded integers, so no machine arithmetic is
involved.
-/

set_option autoImplicit false

namespace Ronin

/-! ### Context data model (contexts.py)

`Context` holds `_parent`, `_immutable` and `_namespaces` (a dict from
namespace name to `_Namespace`).  A `_Namespace` is an attribute bag: its
non-`LOCAL` instance attributes are the stored keys.  The internal fields
`_name` and `_context` of `_Namespace` are represented structurally (the
namespace name is the dict key in `_namespaces`; `_context` is the owning
context).  Values are a type parameter `V` (arbitrary Python objects). -/

/-- Exceptions raised by the context machinery, plus the Python built-in
`ValueError` that the embedded code can raise. -/
inductive CtxErr where
  | notInContext
  | immutableContext
  | incorrectUse
  | valueError
  deriving DecidableEq, Repr

instance instDecEqExcept {E A : Type} [DecidableEq E] [DecidableEq A] :
    DecidableEq (Except E A)
  | .ok a, .ok b =>
    if h : a = b then .isTrue (by rw [h])
    else .isFalse (by intro hh; cases hh; exact h rfl)
  | .ok _, .error _ => .isFalse (fun hh => Except.noConfusion hh)
  | .error _, .ok _ => .isFalse (fun hh => Except.noConfusion hh)
  | .error e, .error f =>
    if h : e = f then .isTrue (by rw [h])
    else .isFalse (by intro hh; cases hh; exact h rfl)

/-- An attribute bag: the non-`LOCAL` instance attributes of a `_Namespace`. -/
abbrev Attrs (V : Type) := List (String × V)

/-- The `_namespaces` dict of a `Context`: namespace name → attribute bag. -/
abbrev Namespaces (V : Type) := List (String × Attrs V)

/-- A `Context`: either a root (`parent=None`) or a child of another context.
Fields: the `_immutable` flag and the `_namespaces` dict. -/
inductive Ctx (V : Type) where
  | root (immutable : Bool) (nss : Namespaces V)
  | child (parent : Ctx V) (immutable : Bool) (nss : Namespaces V)

namespace Ctx

variable {V : Type}

/-- The `_immutable` field. -/
def immutable : Ctx V → Bool
  | .root i _ => i
  | .child _ i _ => i

/-- The `_namespaces` field. -/
def nss : Ctx V → Namespaces V
  | .root _ n => n
  | .child _ _ n => n

/-- Replace the `_namespaces` field. -/
def withNss : Ctx V → Namespaces V → Ctx V
  | .root i _, n => .root i n
  | .child p i _, n => .child p i n

end Ctx

/-- Dict lookup in an association list (keys are unique in a dict; the first
binding wins). -/
def alist.find? {V : Type} (l : List (String × V)) (k : String) : Option V :=
  (l.find? (fun p => p.1 = k)).map (fun p => p.2)

/-- Dict assignment: replace an existing binding in place, else append. -/
def alist.set {V : Type} (l : List (String × V)) (k : String) (v : V) :
    List (String × V) :=
  if (l.find? (fun p => p.1 = k)).isSome then
    l.map (fun p => if p.1 = k then (k, v) else p)
  else l ++ [(k, v)]

/-- The `LOCAL` tuple of `_Namespace`: internal field names that
`_Namespace.__setattr__` exempts from the immutability check. -/
def nsLocal : List String := ["_name", "_context"]

/-- Python `'.' in name`. -/
def pyInStr (c : Char) (s : String) : Bool := s.data.contains c

/-- Splits off the part before the first occurrence of `sep`, if any. -/
def splitFirst (sep : Char) : List Char → Option (List Char × List Char)
  | [] => none
  | c :: cs =>
    if c = sep then some ([], cs)
    else (splitFirst sep cs).map (fun p => (c :: p.1, p.2))

/-- Python `s.split('.', 2)`: at most two splits, so at most three parts;
the third part keeps any remaining dots. -/
def pySplitDot2 (s : List Char) : List (List Char) :=
  match splitFirst '.' s with
  | none => [s]
  | some (a, rest) =>
    match splitFirst '.' rest with
    | none => [a, rest]
    | some (b, rest2) => [a, b, rest2]

namespace Ctx

variable {V : Type}

/-- Attribute read `context.namespace.key`, the composition of
`Context.__getattr__` (which returns, creating if needed, the namespace) and
Python attribute lookup on `_Namespace`: a key present in the instance dict is
returned directly; otherwise `_Namespace.__getattr__` raises
`NotInContextException` when the context has no parent and otherwise delegates
to the parent context's namespace of the same name.  (Reads of the internal
fields `_name`/`_context` return the fields themselves and are outside this
bag model.) -/
def getAttr : Ctx V → String → String → Except CtxErr V
  | .root _ nss, ns, k =>
    match (alist.find? nss ns).bind (fun a => alist.find? a k) with
    | some v => .ok v
    | none => .error .notInContext
  | .child p _ nss, ns, k =>
    match (alist.find? nss ns).bind (fun a => alist.find? a k) with
    | some v => .ok v
    | none => p.getAttr ns k

/-- Spec-side lookup: the value held by the nearest context in the parent
chain that defines `(ns, k)` (§4.1 attribute-read rule). -/
def chainFind : Ctx V → String → String → Option V
  | .root _ nss, ns, k => (alist.find? nss ns).bind (fun a => alist.find? a k)
  | .child p _ nss, ns, k =>
    match (alist.find? nss ns).bind (fun a => alist.find? a k) with
    | some v => some v
    | none => p.chainFind ns k

/-- `Context.get(name, default)`: a name without a dot yields the default;
`name.split('.', 2)` is unpacked into two variables, so a name with two or
more dots yields three parts and the unpacking raises `ValueError` (which is
not caught — only `NotInContextException` is); otherwise the namespace/key
pair is resolved and `NotInContextException` is converted to the default. -/
def get (c : Ctx V) (name : String) (default : V) : Except CtxErr V :=
  if ¬ pyInStr '.' name then .ok default
  else
    match pySplitDot2 name.data with
    | [nsname, k] =>
      match c.getAttr ⟨nsname⟩ ⟨k⟩ with
      | .ok v => .ok v
      | .error _ => .ok default
    | _ => .error .valueError

/-- Attribute write `context.namespace.key = value`, the composition of
`Context.__getattr__` (get-or-create the namespace, which mutates
`_namespaces` even on an immutable context) and `_Namespace.__setattr__`:
a name in `LOCAL` is written without any check (it sets the internal field,
leaving the attribute bag unchanged); otherwise an immutable context raises
`ImmutableContextException` before anything is stored.  The returned context
is the post-state of the attempt, successful or not. -/
def trySetAttr (c : Ctx V) (ns k : String) (v : V) :
    Except CtxErr Unit × Ctx V :=
  let nss1 :=
    if (alist.find? c.nss ns).isSome then c.nss else c.nss ++ [(ns, [])]
  if k ∈ nsLocal then
    (.ok (), c.withNss nss1)
  else if c.immutable then
    (.error .immutableContext, c.withNss nss1)
  else
    (.ok (), c.withNss (alist.set nss1 ns
      (alist.set ((alist.find? nss1 ns).getD []) k v)))

/-- Attribute write returning only the new context on success. -/
def setAttrE (c : Ctx V) (ns k : String) (v : V) : Except CtxErr (Ctx V) :=
  match c.trySetAttr ns k v with
  | (.ok _, c1) => .ok c1
  | (.error e, _) => .error e

end Ctx

/-! #### Shared lemmas about context reads -/

theorem getAttr_eq_chainFind {V : Type} (c : Ctx V) (ns k : String) :
    c.getAttr ns k =
      (match c.chainFind ns k with
       | some v => .ok v
       | none => .error .notInContext) := by
  induction c with
  | root i nss => simp only [Ctx.getAttr, Ctx.chainFind]
  | child p i nss ih =>
    simp only [Ctx.getAttr, Ctx.chainFind]
    cases h : (alist.find? nss ns).bind (fun a => alist.find? a k) with
    | some v => simp
    | none => simpa using ih

theorem splitFirst_of_not_mem (sep : Char) (l : List Char)
    (h : sep ∉ l) : splitFirst sep l = none := by
  induction l with
  | nil => rfl
  | cons c cs ih =>
    have hc : ¬ c = sep := fun hcs => h (hcs ▸ List.mem_cons_self c cs)
    simp [splitFirst, hc, ih (fun hm => h (List.mem_cons_of_mem c hm))]

theorem splitFirst_append_sep (sep : Char) (a b : List Char)
    (ha : sep ∉ a) : splitFirst sep (a ++ sep :: b) = some (a, b) := by
  induction a with
  | nil => simp [splitFirst]
  | cons c cs ih =>
    have hc : ¬ c = sep := fun hcs => ha (hcs ▸ List.mem_cons_self c cs)
    simp [splitFirst, hc, ih (fun hm => ha (List.mem_cons_of_mem c hm))]

/-- `split('.', 2)` on a well-formed dotted name with dot-free parts. -/
theorem pySplitDot2_wellFormed (a b : List Char)
    (ha : '.' ∉ a) (hb : '.' ∉ b) :
    pySplitDot2 (a ++ '.' :: b) = [a, b] := by
  simp [pySplitDot2, splitFirst_append_sep '.' a b ha,
    splitFirst_of_not_mem '.' b hb]

theorem pyInStr_dotted (ns k : String) :
    pyInStr '.' (ns ++ "." ++ k) = true := by
  have : (ns ++ "." ++ k).data = ns.data ++ '.' :: k.data := by
    simp [String.data_append]
  simp [pyInStr, this]

/-- `get` on a well-formed single-dot name resolves via the chain and falls
back to the default. -/
theorem get_dotted {V : Type} (c : Ctx V) (ns k : String) (d : V)
    (hns : '.' ∉ ns.data) (hk : '.' ∉ k.data) :
    c.get (ns ++ "." ++ k) d =
      .ok ((c.chainFind ns k).getD d) := by
  have hdata : (ns ++ "." ++ k).data = ns.data ++ '.' :: k.data := by
    simp [String.data_append]
  have hsplit : pySplitDot2 (ns ++ "." ++ k).data = [ns.data, k.data] := by
    rw [hdata]; exact pySplitDot2_wellFormed ns.data k.data hns hk
  have hmk1 : (⟨ns.data⟩ : String) = ns := rfl
  have hmk2 : (⟨k.data⟩ : String) = k := rfl
  rw [Ctx.get, if_neg (by simp [pyInStr_dotted]), hsplit]
  simp only [hmk1, hmk2]
  rw [getAttr_eq_chainFind]
  cases c.chainFind ns k <;> simp


theorem splitFirst_spec (sep : Char) (l a rest : List Char)
    (h : splitFirst sep l = some (a, rest)) :
    l = a ++ sep :: rest ∧ sep ∉ a := by
  induction l generalizing a with
  | nil => simp [splitFirst] at h
  | cons c cs ih =>
    by_cases hc : c = sep
    · subst hc
      simp only [splitFirst, if_pos rfl, Option.some.injEq, Prod.mk.injEq] at h
      obtain ⟨rfl, rfl⟩ := h
      simp
    · rw [splitFirst, if_neg hc] at h
      cases hsp : splitFirst sep cs with
      | none => rw [hsp] at h; simp at h
      | some p =>
        obtain ⟨p1, p2⟩ := p
        rw [hsp] at h
        simp only [Option.map_some', Option.some.injEq, Prod.mk.injEq] at h
        obtain ⟨rfl, rfl⟩ := h
        rcases ih p1 (by rw [hsp]) with ⟨he, hn⟩
        refine ⟨by simp [he], ?_⟩
        intro hmem
        rcases List.mem_cons.mp hmem with h3 | h3
        · exact hc h3.symm
        · exact hn h3

theorem splitFirst_isSome_of_mem (sep : Char) (l : List Char)
    (h : sep ∈ l) : (splitFirst sep l).isSome := by
  induction l with
  | nil => simp at h
  | cons c cs ih =>
    by_cases hc : c = sep
    · simp [splitFirst, hc]
    · rcases List.mem_cons.mp h with h1 | h2
      · exact absurd h1.symm hc
      · simp [splitFirst, hc]
        rcases Option.isSome_iff_exists.mp (ih h2) with ⟨p, hp⟩
        simp [hp]

/-- A name with two or more dots makes `split('.', 2)` produce three parts. -/
theorem pySplitDot2_three_of_two_dots (s : List Char)
    (h : 2 ≤ s.count '.') : ∃ a b r, pySplitDot2 s = [a, b, r] := by
  have hmem : '.' ∈ s := List.count_pos_iff.mp (by omega)
  rcases Option.isSome_iff_exists.mp (splitFirst_isSome_of_mem '.' s hmem)
    with ⟨⟨a, rest⟩, hs⟩
  rcases splitFirst_spec '.' s a rest hs with ⟨he, hna⟩
  have hcount : s.count '.' = rest.count '.' + 1 := by
    subst he
    simp [List.count_append, List.count_cons]
    simp [List.count_eq_zero_of_not_mem hna]
  have hmem2 : '.' ∈ rest := List.count_pos_iff.mp (by omega)
  rcases Option.isSome_iff_exists.mp (splitFirst_isSome_of_mem '.' rest hmem2)
    with ⟨⟨b, rest2⟩, hs2⟩
  exact ⟨a, b, rest2, by simp [pySplitDot2, hs, hs2]⟩

theorem pyInStr_of_two_dots (s : String) (h : 2 ≤ s.data.count '.') :
    pyInStr '.' s = true := by
  have hmem : '.' ∈ s.data := List.count_pos_iff.mp (by omega)
  simp only [pyInStr, List.contains_iff_exists_mem_beq]
  exact ⟨'.', hmem, by simp⟩

/-! ### Claim C1 -/

/-- **C1.** For every chain of nested contexts, a namespace attribute read
resolves to the nearest context in the chain that defines the key (so an
ancestor-only key yields the ancestor's value and a key defined on both
ancestor and descendant yields the descendant's value), and a defaulted read
via `get` of a key defined nowhere in the chain returns the caller-supplied
default and never raises.  (`ns` and `k` are ordinary dot-free
configuration names.) -/
theorem C1_nearest_chain_read {V : Type} (c : Ctx V) (ns k : String) (d : V)
    (hns : '.' ∉ ns.data) (hk : '.' ∉ k.data) :
    (c.getAttr ns k =
      (match c.chainFind ns k with
       | some v => .ok v
       | none => .error .notInContext)) ∧
    (c.chainFind ns k = none → c.get (ns ++ "." ++ k) d = .ok d) := by
  refine ⟨getAttr_eq_chainFind c ns k, fun hnone => ?_⟩
  rw [get_dotted c ns k d hns hk, hnone]
  rfl

/-- Witness for C1 on a two-context chain: the parent defines `a.x = "1"` and
`a.y = "3"`, the child redefines `a.x = "2"`; the child read of `a.x` sees the
child value (shadowing), the read of `a.y` sees the ancestor value, and a
defaulted `get` of the undefined `a.z` yields the default. -/
theorem C1_nearest_chain_read_witness :
    (Ctx.child (Ctx.root false [("a", [("x", "1"), ("y", "3")])]) false
        [("a", [("x", "2")])]).getAttr "a" "x" = .ok "2" ∧
    (Ctx.child (Ctx.root false [("a", [("x", "1"), ("y", "3")])]) false
        [("a", [("x", "2")])]).getAttr "a" "y" = .ok "3" ∧
    (Ctx.child (Ctx.root false [("a", [("x", "1"), ("y", "3")])]) false
        [("a", [("x", "2")])]).get ("a" ++ "." ++ "z") "dflt" = .ok "dflt" := by
  refine ⟨?_, ?_, ?_⟩
  · have h := C1_nearest_chain_read
      (Ctx.child (Ctx.root false [("a", [("x", "1"), ("y", "3")])]) false
        [("a", [("x", "2")])]) "a" "x" "dflt" (by decide) (by decide)
    rw [h.1]; decide
  · have h := C1_nearest_chain_read
      (Ctx.child (Ctx.root false [("a", [("x", "1"), ("y", "3")])]) false
        [("a", [("x", "2")])]) "a" "y" "dflt" (by decide) (by decide)
    rw [h.1]; decide
  · have h := C1_nearest_chain_read
      (Ctx.child (Ctx.root false [("a", [("x", "1"), ("y", "3")])]) false
        [("a", [("x", "2")])]) "a" "z" "dflt" (by decide) (by decide)
    exact h.2 (by decide)

/-! ### Claim C5

`Context.get` catches only `NotInContextException`.  The unpacking
`namespace_name, name = name.split('.', 2)` raises an uncaught `ValueError`
for a name with two or more dots, so `get` does not return the default on
that failure: the claim is refuted on `"a.b.c"` and holds in the amended
form restricted to names with at most one dot. -/

/-- **C5 counterexample.** On an empty root context the key `"a.b.c"` is
defined nowhere, yet `get("a.b.c", "d")` raises `ValueError` (from the
two-variable unpacking of `split('.', 2)`) instead of returning the
default. -/
theorem C5_counterexample :
    (Ctx.root false ([] : Namespaces String)).get "a.b.c" "d"
        = .error .valueError ∧
    (Ctx.root false ([] : Namespaces String)).get "a.b.c" "d" ≠ .ok "d" := by
  constructor <;> decide

/-- **C5 (amended).** `Context.get` returns the default for a name without a
dot; for a name with exactly one dot (written `ns ++ "." ++ k` with dot-free
parts) it returns the resolved value, falling back to the default on any
resolution failure including `NotInContext`, and never raises; but for a name
with two or more dots it raises `ValueError` instead of returning the
default. -/
theorem C5_get_default_behaviour {V : Type} (c : Ctx V) (name : String)
    (d : V) :
    (¬ pyInStr '.' name → c.get name d = .ok d) ∧
    (∀ ns k, name = ns ++ "." ++ k → '.' ∉ ns.data → '.' ∉ k.data →
      c.get name d = .ok ((c.chainFind ns k).getD d)) ∧
    (2 ≤ name.data.count '.' → c.get name d = .error .valueError) := by
  refine ⟨fun h => ?_, fun ns k he hns hk => ?_, fun h2 => ?_⟩
  · rw [Ctx.get, if_pos h]
  · subst he; exact get_dotted c ns k d hns hk
  · rcases pySplitDot2_three_of_two_dots name.data h2 with ⟨a, b, r, hsplit⟩
    rw [Ctx.get, if_neg (by simp [pyInStr_of_two_dots name h2]), hsplit]

/-- Witness for the amended C5: a dotless name and a twice-dotted name on a
concrete context. -/
theorem C5_get_default_behaviour_witness :
    (Ctx.root false ([("a", [("b", "1")])] : Namespaces String)).get
        "nodots" "d" = .ok "d" ∧
    (Ctx.root false ([("a", [("b", "1")])] : Namespaces String)).get
        "x.y.z" "d" = .error .valueError := by
  constructor
  · exact (C5_get_default_behaviour
      (Ctx.root false ([("a", [("b", "1")])] : Namespaces String))
      "nodots" "d").1 (by decide)
  · exact (C5_get_default_behaviour
      (Ctx.root false ([("a", [("b", "1")])] : Namespaces String))
      "x.y.z" "d").2.2 (by decide)


/-! ### Claim C6

`_Namespace.__setattr__` checks `_immutable` only for names outside `LOCAL =
('_name', '_context')`.  Writing to the attribute named `"_name"` on an
immutable context therefore succeeds (it overwrites the namespace's internal
field) instead of raising `ImmutableContextException`: the claim fails for
those two internal names and holds for every other key. -/

theorem bagLookup_append_empty {V : Type} (nss : Namespaces V)
    (ns ns2 k2 : String) :
    (alist.find? (nss ++ [(ns, [])]) ns2).bind (fun a => alist.find? a k2)
      = (alist.find? nss ns2).bind (fun a => alist.find? a k2) := by
  simp only [alist.find?, List.find?_append]
  cases h : nss.find? (fun p => p.1 = ns2) with
  | some a => simp
  | none =>
    simp only [Option.or, Option.map]
    by_cases hns : ns = ns2 <;> simp [List.find?, hns, alist.find?]

theorem getAttr_withNss_append_empty {V : Type} (c : Ctx V)
    (ns ns2 k2 : String) :
    (c.withNss (c.nss ++ [(ns, [])])).getAttr ns2 k2 = c.getAttr ns2 k2 := by
  cases c with
  | root i nss =>
    simp only [Ctx.withNss, Ctx.nss, Ctx.getAttr]
    rw [bagLookup_append_empty]
  | child p i nss =>
    simp only [Ctx.withNss, Ctx.nss, Ctx.getAttr]
    rw [bagLookup_append_empty]

/-- The post-state context of `trySetAttr` answers every attribute read as
before whenever the write did not store into the bag (the only change is a
possibly created empty namespace). -/
theorem trySetAttr_reads_unchanged {V : Type} (c : Ctx V) (ns k : String)
    (v : V) (hk : k ∈ nsLocal ∨ c.immutable = true) :
    ∀ ns2 k2, ((c.trySetAttr ns k v).2).getAttr ns2 k2 = c.getAttr ns2 k2 := by
  intro ns2 k2
  rw [Ctx.trySetAttr]
  by_cases hmem : (alist.find? c.nss ns).isSome
  · rcases hk with h | h
    · simp only [hmem, if_true, if_pos h]
      cases c <;> rfl
    · by_cases hl : k ∈ nsLocal
      · simp only [hmem, if_true, if_pos hl]
        cases c <;> rfl
      · simp only [hmem, if_true, if_neg hl, h, if_true]
        cases c <;> rfl
  · rcases hk with h | h
    · simp only [hmem, if_false, if_pos h]
      exact getAttr_withNss_append_empty c ns ns2 k2
    · by_cases hl : k ∈ nsLocal
      · simp only [hmem, if_false, if_pos hl]
        exact getAttr_withNss_append_empty c ns ns2 k2
      · simp only [hmem, if_false, if_neg hl, h, if_true]
        exact getAttr_withNss_append_empty c ns ns2 k2

/-- **C6 counterexample.** On an immutable context, writing the attribute
named `"_name"` of any namespace does not raise `ImmutableContextException`
(and so mutates internal state of the namespace): the claim's "every key"
fails on the `LOCAL` names `_name` and `_context`. -/
theorem C6_counterexample :
    ((Ctx.root true ([] : Namespaces String)).trySetAttr "ns" "_name" "v").1
        = .ok () ∧
    ((Ctx.root true ([] : Namespaces String)).trySetAttr "ns" "_name" "v").1
        ≠ .error .immutableContext := by
  constructor <;> decide

/-- **C6 (amended).** For every context constructed as immutable, every
namespace and every key other than the internal `_Namespace` field names
`_name` and `_context`, writing a value to that namespace attribute fails
with `ImmutableContextException`, and the write leaves every readable
attribute of the context unchanged. -/
theorem C6_immutable_write_fails {V : Type} (c : Ctx V) (ns k : String)
    (v : V) (himm : c.immutable = true) (hk : k ∉ nsLocal) :
    (c.trySetAttr ns k v).1 = .error .immutableContext ∧
    ∀ ns2 k2, ((c.trySetAttr ns k v).2).getAttr ns2 k2 = c.getAttr ns2 k2 := by
  constructor
  · rw [Ctx.trySetAttr]
    by_cases hmem : (alist.find? c.nss ns).isSome <;>
      simp [hmem, if_neg hk, himm]
  · exact trySetAttr_reads_unchanged c ns k v (Or.inr himm)

/-- Witness for the amended C6 at a concrete immutable context. -/
theorem C6_immutable_write_fails_witness :
    ((Ctx.root true ([("a", [("x", "0")])] : Namespaces String)).trySetAttr
        "a" "y" "1").1 = .error .immutableContext ∧
    ((Ctx.root true ([("a", [("x", "0")])] : Namespaces String)).trySetAttr
        "a" "y" "1").2.getAttr "a" "x"
      = (Ctx.root true ([("a", [("x", "0")])] : Namespaces String)).getAttr
        "a" "x" := by
  have h := C6_immutable_write_fails
    (Ctx.root true ([("a", [("x", "0")])] : Namespaces String)) "a" "y" "1"
    (by decide) (by decide)
  exact ⟨h.1, h.2 "a" "x"⟩


/-! ### Claim C7: serialization (`Context.__str__` / `_write` / `_all`)

`Context._all` builds an `OrderedDict`: the parent's `_all` is inserted
first, then the context's own entries, sorted by namespace then key, are
assigned one at a time.  Assigning to a key that is already present
replaces the value but keeps the original (parent's) position, so the final
line order is *not* globally sorted by namespace/key: it is parent-block
first, with each context's novel entries appended sorted. -/

/-- Python 2 byte-string `<`: lexicographic on character codes. -/
def pyStrLt : List Char → List Char → Bool
  | [], [] => false
  | [], _ :: _ => true
  | _ :: _, [] => false
  | c :: cs, d :: ds =>
    if c.toNat < d.toNat then true
    else if d.toNat < c.toNat then false
    else pyStrLt cs ds

/-- Python 2 byte-string `<=`. -/
def pyLeKey (a b : String) : Bool := ! pyStrLt b.data a.data

/-- Python `s.startswith('_')`. -/
def pyPrivate (s : String) : Bool :=
  match s.data with
  | [] => false
  | c :: _ => c = '_'

/-- One step of Python `sorted`: insert into an ascending-by-key list. -/
def insortPair {V : Type} (x : String × V) :
    List (String × V) → List (String × V)
  | [] => [x]
  | y :: ys => if pyLeKey x.1 y.1 then x :: y :: ys else y :: insortPair x ys

/-- Python `sorted(items)` by key (keys are unique dict keys, so comparing
the key decides the tuple comparison; `sorted` is stable). -/
def sortPairs {V : Type} (l : List (String × V)) : List (String × V) :=
  l.foldr insortPair []

/-- `_Namespace._all_local`: the instance attributes, sorted by name, with
private names (leading underscore, which also covers `LOCAL`) skipped. -/
def allLocal (attrs : Attrs String) : Attrs String :=
  (sortPairs attrs).filter (fun p => ! pyPrivate p.1)

/-- One context's own contribution to `Context._all`, as
((namespace, key), value) triples in emission order: namespaces sorted by
name, keys sorted within each namespace. -/
def ownPairs (nss : Namespaces String) : List ((String × String) × String) :=
  (sortPairs nss).flatMap
    (fun q => (allLocal q.2).map (fun p => ((q.1, p.1), p.2)))

/-- The same contribution with the rendered `'%s.%s'` dict keys. -/
def ownEntries (nss : Namespaces String) : List (String × String) :=
  (ownPairs nss).map (fun e => (e.1.1 ++ "." ++ e.1.2, e.2))

/-- `Context._all`: parent first, then the context's own entries assigned
one at a time into the `OrderedDict` (`alist.set` models `OrderedDict`
assignment: replace in place, else append). -/
def Ctx.allEntries : Ctx String → List (String × String)
  | .root _ nss =>
    List.foldl (fun r p => alist.set r p.1 p.2) [] (ownEntries nss)
  | .child p _ nss =>
    List.foldl (fun r q => alist.set r q.1 q.2) p.allEntries (ownEntries nss)

/-- `Context._write`/`__str__`: one `key=value` line per entry of `_all`
whose rendered key does not start with an underscore (this skips private
namespaces; private keys were already dropped by `_all_local`). -/
def Ctx.serialize (c : Ctx String) : String :=
  String.join ((c.allEntries.filter (fun p => ! pyPrivate p.1)).map
    (fun p => p.1 ++ "=" ++ p.2 ++ "\n"))

/-- Spec-side rendering of the claim's order: all non-private merged entries
sorted globally by namespace name then key (rendered dict keys are compared;
in the counterexample below the names are single letters, where the two
orders coincide). -/
def serializeSortedSpec (c : Ctx String) : String :=
  String.join (((sortPairs c.allEntries).filter
      (fun p => ! pyPrivate p.1)).map
    (fun p => p.1 ++ "=" ++ p.2 ++ "\n"))

/-- **C7 counterexample.** Parent defines only `b.x = 1`, child defines only
`a.y = 2`.  The serialization emits the parent's `b.x` line before the
child's `a.y` line, so the output is not sorted by namespace then key as the
claim states. -/
theorem C7_counterexample :
    (Ctx.child (Ctx.root false [("b", [("x", "1")])]) false
        [("a", [("y", "2")])]).serialize = "b.x=1\na.y=2\n" ∧
    (Ctx.child (Ctx.root false [("b", [("x", "1")])]) false
        [("a", [("y", "2")])]).serialize ≠
      serializeSortedSpec (Ctx.child (Ctx.root false [("b", [("x", "1")])])
        false [("a", [("y", "2")])]) := by
  constructor <;> decide

/-! #### Dictionary and sorting lemmas -/

@[simp]
theorem alist.find?_nil {V : Type} (key : String) :
    alist.find? ([] : List (String × V)) key = none := rfl

@[simp]
theorem alist.find?_cons {V : Type} (p : String × V) (ps : List (String × V))
    (key : String) :
    alist.find? (p :: ps) key =
      if p.1 = key then some p.2 else alist.find? ps key := by
  by_cases h : p.1 = key <;> simp [alist.find?, List.find?, h]

theorem alist.find?_app {V : Type} (l1 l2 : List (String × V)) (key : String) :
    alist.find? (l1 ++ l2) key = (alist.find? l1 key).or (alist.find? l2 key) := by
  induction l1 with
  | nil => simp
  | cons p ps ih =>
    by_cases h : p.1 = key <;> simp [h, ih]

theorem alist.find?_eq_none {V : Type} (l : List (String × V)) (key : String)
    (h : key ∉ l.map (fun p => p.1)) : alist.find? l key = none := by
  induction l with
  | nil => rfl
  | cons p ps ih =>
    have h1 : ¬ p.1 = key := fun he => h (by simp [he])
    simp [h1]
    exact ih (fun hm => h (by simp; right; simpa using hm))

theorem alist.find?_mapset_ne {V : Type} (ps : List (String × V))
    (k key : String) (v : V) (hk : key ≠ k) :
    alist.find? (ps.map (fun p => if p.1 = k then (k, v) else p)) key
      = alist.find? ps key := by
  induction ps with
  | nil => rfl
  | cons q qs ih =>
    by_cases hq : q.1 = k
    · have h1 : ¬ k = key := fun he => hk he.symm
      simp [hq, h1, ih]
    · by_cases h2 : q.1 = key <;> simp [hq, h2, hk, ih]

theorem alist.find?_mapset_self {V : Type} (ps : List (String × V))
    (k : String) (v : V) (hp : (ps.find? (fun p => p.1 = k)).isSome) :
    alist.find? (ps.map (fun p => if p.1 = k then (k, v) else p)) k
      = some v := by
  induction ps with
  | nil => simp at hp
  | cons q qs ih =>
    by_cases hq : q.1 = k
    · simp [hq]
    · have hp2 : (qs.find? (fun p => p.1 = k)).isSome := by
        simpa [List.find?, hq] using hp
      simp [hq, ih hp2]

/-- Dict assignment then lookup. -/
theorem alist.find?_set {V : Type} (l : List (String × V)) (k key : String)
    (v : V) :
    alist.find? (alist.set l k v) key =
      if key = k then some v else alist.find? l key := by
  rw [alist.set]
  by_cases hp : (l.find? (fun p => p.1 = k)).isSome
  · rw [if_pos hp]
    by_cases hk : key = k
    · subst hk
      simp [alist.find?_mapset_self l key v hp]
    · simp [alist.find?_mapset_ne l k key v hk, hk]
  · rw [if_neg hp]
    rw [alist.find?_app]
    by_cases hk : key = k
    · subst hk
      have hnone : l.find? (fun p => p.1 = key) = none :=
        Option.not_isSome_iff_eq_none.mp hp
      have : alist.find? l key = none := by simp [alist.find?, hnone]
      simp [this]
    · have h1 : ¬ k = key := fun he => hk he.symm
      simp [h1, hk]

/-- Looking up after assigning a batch of entries with distinct keys:
the batch shadows the base dictionary. -/
theorem alist.find?_foldl_set {V : Type} (own : List (String × V)) :
    ∀ (r : List (String × V)) (key : String),
    (own.map (fun p => p.1)).Nodup →
    alist.find? (own.foldl (fun acc p => alist.set acc p.1 p.2) r) key
      = (alist.find? own key).or (alist.find? r key) := by
  induction own with
  | nil => intro r key _; simp
  | cons p rest ih =>
    intro r key hn
    have hn2 : (rest.map (fun q => q.1)).Nodup := (List.nodup_cons.mp hn).2
    have hp : p.1 ∉ rest.map (fun q => q.1) := (List.nodup_cons.mp hn).1
    rw [List.foldl_cons, ih (alist.set r p.1 p.2) key hn2]
    by_cases hk : key = p.1
    · subst hk
      rw [alist.find?_eq_none rest p.1 hp]
      simp [alist.find?_set]
    · have h1 : ¬ p.1 = key := fun he => hk he.symm
      rw [alist.find?_set r p.1 key p.2, if_neg hk]
      simp [h1]

theorem insortPair_perm {V : Type} (x : String × V) (l : List (String × V)) :
    List.Perm (insortPair x l) (x :: l) := by
  induction l with
  | nil => exact List.Perm.refl _
  | cons y ys ih =>
    rw [insortPair]
    by_cases h : pyLeKey x.1 y.1
    · rw [if_pos h]
    · rw [if_neg h]
      exact (ih.cons y).trans (List.Perm.swap x y ys)

theorem sortPairs_perm {V : Type} (l : List (String × V)) :
    List.Perm (sortPairs l) l := by
  induction l with
  | nil => exact List.Perm.refl _
  | cons p ps ih =>
    exact (insortPair_perm p (sortPairs ps)).trans (ih.cons p)

/-- `find?` is stable under permutation when the keys are distinct. -/
theorem alist.find?_perm {V : Type} {l l2 : List (String × V)}
    (h : List.Perm l l2) (hn : (l.map (fun p => p.1)).Nodup) (key : String) :
    alist.find? l key = alist.find? l2 key := by
  induction h with
  | nil => rfl
  | cons x h2 ih =>
    simp only [List.map_cons, List.nodup_cons] at hn
    by_cases hx : x.1 = key
    · simp [hx]
    · simpa [hx] using ih hn.2
  | swap x y l3 =>
    have hxy : y.1 ≠ x.1 := by
      intro he
      simp [List.nodup_cons, he] at hn
    by_cases h1 : y.1 = key <;> by_cases h2 : x.1 = key
    · exact absurd (h1.trans h2.symm) hxy
    · simp [h1, h2]
    · simp [h1, h2]
    · simp [h1, h2]
  | trans h1 h2 ih1 ih2 =>
    refine (ih1 hn).trans (ih2 ?_)
    exact (h1.map (fun p => p.1)).nodup hn

/-- `find?` ignores a key-determined filter that keeps the requested key. -/
theorem alist.find?_filter {V : Type} (Q : String → Bool)
    (l : List (String × V)) (key : String) (hQ : Q key = true) :
    alist.find? (l.filter (fun p => Q p.1)) key = alist.find? l key := by
  induction l with
  | nil => rfl
  | cons p ps ih =>
    by_cases hk : p.1 = key
    · rw [List.filter_cons, if_pos (by simp [hk, hQ])]
      simp [hk]
    · rw [List.filter_cons]
      by_cases hq : Q p.1
      · rw [if_pos (by simp [hq])]
        simp [hk, ih]
      · rw [if_neg (by simp [hq])]
        simp [hk, ih]

/-! #### String order and dotted-key lemmas -/

theorem uint32_toNat_inj (a b : UInt32) (h : a.toNat = b.toNat) : a = b := by
  cases a; cases b
  simp only [UInt32.toNat] at h
  congr 1
  exact BitVec.eq_of_toNat_eq h

theorem char_toNat_inj (a b : Char) (h : a.toNat = b.toNat) : a = b :=
  Char.ext (uint32_toNat_inj _ _ h)

theorem str_data_ext' (a b : String) (h : a.data = b.data) : a = b :=
  congrArg String.mk h

theorem pyStrLt_cons_iff (c d : Char) (cs ds : List Char) :
    pyStrLt (c :: cs) (d :: ds) = true ↔
      c.toNat < d.toNat ∨ (c = d ∧ pyStrLt cs ds = true) := by
  rcases Nat.lt_trichotomy c.toNat d.toNat with h | h | h
  · simp [pyStrLt, h]
  · have hcd : c = d := char_toNat_inj c d h
    subst hcd
    simp [pyStrLt, Nat.lt_irrefl]
  · have hne : c ≠ d := fun he => absurd (he ▸ h) (Nat.lt_irrefl _)
    simp [pyStrLt, h, Nat.lt_asymm h, hne]

theorem pyStrLt_asymm (a b : List Char) (h1 : pyStrLt a b = true)
    (h2 : pyStrLt b a = true) : False := by
  induction a generalizing b with
  | nil => cases b <;> simp [pyStrLt] at h1 h2
  | cons c cs ih =>
    cases b with
    | nil => simp [pyStrLt] at h1
    | cons d ds =>
      rcases (pyStrLt_cons_iff c d cs ds).mp h1 with h | ⟨rfl, h⟩
      · rcases (pyStrLt_cons_iff d c ds cs).mp h2 with h4 | ⟨rfl, h4⟩
        · exact absurd (Nat.lt_trans h h4) (Nat.lt_irrefl _)
        · exact absurd h (Nat.lt_irrefl _)
      · rcases (pyStrLt_cons_iff c c ds cs).mp h2 with h4 | ⟨_, h4⟩
        · exact absurd h4 (Nat.lt_irrefl _)
        · exact ih ds h h4

theorem pyStrLt_trichotomy (a b : List Char) :
    pyStrLt a b = true ∨ a = b ∨ pyStrLt b a = true := by
  induction a generalizing b with
  | nil => cases b <;> simp [pyStrLt]
  | cons c cs ih =>
    cases b with
    | nil => simp [pyStrLt]
    | cons d ds =>
      rcases Nat.lt_trichotomy c.toNat d.toNat with h | h | h
      · left; exact (pyStrLt_cons_iff c d cs ds).mpr (Or.inl h)
      · have hcd : c = d := char_toNat_inj c d h
        subst hcd
        rcases ih ds with h2 | h2 | h2
        · left; exact (pyStrLt_cons_iff c c cs ds).mpr (Or.inr ⟨rfl, h2⟩)
        · right; left; rw [h2]
        · right; right
          exact (pyStrLt_cons_iff c c ds cs).mpr (Or.inr ⟨rfl, h2⟩)
      · right; right; exact (pyStrLt_cons_iff d c ds cs).mpr (Or.inl h)

theorem pyStrLt_trans (a b c : List Char) (h1 : pyStrLt a b = true)
    (h2 : pyStrLt b c = true) : pyStrLt a c = true := by
  induction a generalizing b c with
  | nil =>
    cases b with
    | nil => simp [pyStrLt] at h1
    | cons d ds =>
      cases c with
      | nil => simp [pyStrLt] at h2
      | cons e es => simp [pyStrLt]
  | cons x xs ih =>
    cases b with
    | nil => simp [pyStrLt] at h1
    | cons d ds =>
      cases c with
      | nil => simp [pyStrLt] at h2
      | cons e es =>
        rcases (pyStrLt_cons_iff x d xs ds).mp h1 with h3 | ⟨rfl, h3⟩ <;>
          rcases (pyStrLt_cons_iff _ e _ es).mp h2 with h4 | ⟨he, h4⟩
        · exact (pyStrLt_cons_iff x e xs es).mpr
            (Or.inl (Nat.lt_trans h3 h4))
        · exact (pyStrLt_cons_iff x e xs es).mpr (Or.inl (he ▸ h3))
        · exact (pyStrLt_cons_iff x e xs es).mpr (Or.inl h4)
        · exact (pyStrLt_cons_iff x e xs es).mpr
            (Or.inr ⟨he, ih ds es h3 h4⟩)

theorem pyStrLt_false_cases (a b : List Char) (h : pyStrLt a b = false) :
    a = b ∨ pyStrLt b a = true := by
  rcases pyStrLt_trichotomy a b with h2 | h2 | h2
  · exact absurd h2 (by simp [h])
  · exact Or.inl h2
  · exact Or.inr h2

theorem pyLeKey_total (a b : String) (h : pyLeKey a b = false) :
    pyLeKey b a = true := by
  simp only [pyLeKey, Bool.not_eq_false'] at h
  simp only [pyLeKey, Bool.not_eq_true']
  cases hx : pyStrLt a.data b.data with
  | false => rfl
  | true => exact absurd hx (fun hc => pyStrLt_asymm _ _ hc h)

theorem pyLeKey_trans (a b c : String) (h1 : pyLeKey a b = true)
    (h2 : pyLeKey b c = true) : pyLeKey a c = true := by
  simp only [pyLeKey, Bool.not_eq_true'] at h1 h2 ⊢
  cases hx : pyStrLt c.data a.data with
  | false => rfl
  | true =>
    exfalso
    rcases pyStrLt_false_cases _ _ h2 with he | hlt
    · rw [he] at hx
      exact absurd hx (by simp [h1])
    · rcases pyStrLt_false_cases _ _ h1 with he2 | hlt2
      · rw [he2] at hlt
        exact pyStrLt_asymm _ _ hlt hx
      · exact pyStrLt_asymm _ _ (pyStrLt_trans _ _ _ hlt2 hlt) hx

theorem pyStrLt_of_le_of_ne (a b : String) (hle : pyLeKey a b = true)
    (hne : a ≠ b) : pyStrLt a.data b.data = true := by
  simp only [pyLeKey, Bool.not_eq_true'] at hle
  rcases pyStrLt_false_cases _ _ hle with he | hlt
  · exact absurd (str_data_ext' b a he) (fun h => hne h.symm)
  · exact hlt

/-- The rendered `'%s.%s'` dict key. -/
def dotKey (ns k : String) : String := ns ++ "." ++ k

theorem dotKey_data (ns k : String) :
    (dotKey ns k).data = ns.data ++ '.' :: k.data := by
  simp [dotKey, String.data_append]

theorem str_data_ext (a b : String) (h : a.data = b.data) : a = b :=
  congrArg String.mk h

theorem dotKey_inj (ns k ns2 k2 : String) (h1 : '.' ∉ ns.data)
    (h2 : '.' ∉ ns2.data) (he : dotKey ns k = dotKey ns2 k2) :
    ns = ns2 ∧ k = k2 := by
  have hd : ns.data ++ '.' :: k.data = ns2.data ++ '.' :: k2.data := by
    have := congrArg String.data he
    rwa [dotKey_data, dotKey_data] at this
  have ha := splitFirst_append_sep '.' ns.data k.data h1
  have hb := splitFirst_append_sep '.' ns2.data k2.data h2
  rw [hd, hb] at ha
  simp only [Option.some.injEq, Prod.mk.injEq] at ha
  exact ⟨str_data_ext _ _ ha.1.symm, str_data_ext _ _ ha.2.symm⟩

/-! #### Well-formedness of contexts (dict invariants)

Python dicts cannot hold duplicate keys, and namespace/key identifiers are
ordinary Python attribute names containing no dot.  These invariants are
implicit in the source; the association-list embedding states them
explicitly. -/

/-- Dict invariants of one `_namespaces` mapping. -/
def NssWF {V : Type} (nss : Namespaces V) : Prop :=
  (nss.map (fun q => q.1)).Nodup ∧
  (∀ q ∈ nss, '.' ∉ (q.1 : String).data) ∧
  (∀ q ∈ nss, ((q.2.map (fun p => p.1)).Nodup ∧
    ∀ p ∈ q.2, '.' ∉ (p.1 : String).data))

/-- Dict invariants of a whole context chain. -/
def Ctx.WF {V : Type} : Ctx V → Prop
  | .root _ nss => NssWF nss
  | .child p _ nss => NssWF nss ∧ p.WF

theorem alist.find?_mem {V : Type} (l : List (String × V)) (key : String)
    (v : V) (h : alist.find? l key = some v) : (key, v) ∈ l := by
  induction l with
  | nil => simp at h
  | cons p ps ih =>
    obtain ⟨a, b⟩ := p
    by_cases hp : a = key
    · subst hp
      rw [alist.find?_cons, if_pos rfl] at h
      have hv : b = v := by simpa using h
      subst hv
      exact List.mem_cons_self _ _
    · rw [alist.find?_cons, if_neg hp] at h
      exact List.mem_cons_of_mem _ (ih h)

/-- One namespace's rendered dict entries inside `ownEntries`. -/
def groupEntries (q : String × Attrs String) : List (String × String) :=
  (allLocal q.2).map (fun p => (dotKey q.1 p.1, p.2))

theorem ownEntries_eq (nss : Namespaces String) :
    ownEntries nss = (sortPairs nss).flatMap groupEntries := by
  simp only [ownEntries, ownPairs, groupEntries, List.map_flatMap,
    List.map_map]
  rfl

theorem find?_group_ne (q : String × Attrs String) (ns k : String)
    (hq : '.' ∉ q.1.data) (hns : '.' ∉ ns.data) (hne : q.1 ≠ ns) :
    alist.find? (groupEntries q) (dotKey ns k) = none := by
  apply alist.find?_eq_none
  intro hmem
  simp only [groupEntries, List.map_map] at hmem
  rcases List.mem_map.mp hmem with ⟨p, hp, he⟩
  exact hne (dotKey_inj q.1 p.1 ns k hq hns (by simpa using he)).1

theorem find?_group_self (ns : String) (bag : Attrs String) (k : String)
    (hns : '.' ∉ ns.data) :
    alist.find? ((allLocal bag).map (fun p => (dotKey ns p.1, p.2)))
        (dotKey ns k) = alist.find? (allLocal bag) k := by
  induction allLocal bag with
  | nil => rfl
  | cons p ps ih =>
    by_cases hpk : p.1 = k
    · subst hpk
      simp
    · have hne : ¬ dotKey ns p.1 = dotKey ns k :=
        fun he => hpk (dotKey_inj ns p.1 ns k hns hns he).2
      simp [hne, hpk, ih]

theorem find?_allLocal (bag : Attrs String) (k : String)
    (hn : (bag.map (fun p => p.1)).Nodup) (hk : pyPrivate k = false) :
    alist.find? (allLocal bag) k = alist.find? bag k := by
  rw [allLocal,
    alist.find?_filter (fun s => ! pyPrivate s) _ k (by simp [hk])]
  have hns : ((sortPairs bag).map (fun p => p.1)).Nodup :=
    (((sortPairs_perm bag).map (fun p => p.1)).nodup_iff).mpr hn
  exact alist.find?_perm (sortPairs_perm bag) hns k

theorem find?_flat_none (gs : List (String × Attrs String)) (ns k : String)
    (hdf : ∀ q ∈ gs, '.' ∉ (q.1 : String).data) (hns : '.' ∉ ns.data)
    (hnot : ns ∉ gs.map (fun q => q.1)) :
    alist.find? (gs.flatMap groupEntries) (dotKey ns k) = none := by
  induction gs with
  | nil => rfl
  | cons q rest ih =>
    rw [List.flatMap_cons, alist.find?_app]
    have hne : q.1 ≠ ns := fun he => hnot (by simp [he])
    rw [find?_group_ne q ns k (hdf q (by simp)) hns hne]
    rw [ih (fun x hx => hdf x (by simp [hx]))
      (fun hm => hnot (by simp at hm ⊢; right; exact hm))]
    rfl

theorem find?_flat (gs : List (String × Attrs String)) (ns k : String)
    (hdf : ∀ q ∈ gs, '.' ∉ (q.1 : String).data) (hns : '.' ∉ ns.data)
    (hn : (gs.map (fun q => q.1)).Nodup) :
    alist.find? (gs.flatMap groupEntries) (dotKey ns k)
      = (alist.find? gs ns).bind
          (fun bag => alist.find? (allLocal bag) k) := by
  induction gs with
  | nil => rfl
  | cons q rest ih =>
    rw [List.flatMap_cons, alist.find?_app]
    by_cases hq : q.1 = ns
    · rw [show groupEntries q =
          (allLocal q.2).map (fun p => (dotKey q.1 p.1, p.2)) from rfl]
      have hq2 : dotKey ns k = dotKey q.1 k := by rw [hq]
      rw [hq2, find?_group_self q.1 q.2 k (hq ▸ hns)]
      cases hfound : alist.find? (allLocal q.2) k with
      | some v => simp [hfound, hq]
      | none =>
        have hnot : q.1 ∉ rest.map (fun z => z.1) :=
          (List.nodup_cons.mp (by simpa using hn)).1
        rw [← hq2, find?_flat_none rest ns k
          (fun x hx => hdf x (by simp [hx])) hns (hq ▸ hnot)]
        simp [hfound, hq]
    · rw [find?_group_ne q ns k (hdf q (by simp)) hns hq]
      rw [ih (fun x hx => hdf x (by simp [hx]))
        ((List.nodup_cons.mp (by simpa using hn)).2)]
      simp [hq]

/-- Looking up a rendered key in one context's own sorted contribution is
the dict lookup in that context's namespaces. -/
theorem find?_ownEntries (nss : Namespaces String) (hwf : NssWF nss)
    (ns k : String) (hns : '.' ∉ ns.data) (hpriv : pyPrivate k = false) :
    alist.find? (ownEntries nss) (dotKey ns k)
      = (alist.find? nss ns).bind (fun bag => alist.find? bag k) := by
  rw [ownEntries_eq]
  have hperm := sortPairs_perm nss
  have hdf : ∀ q ∈ sortPairs nss, '.' ∉ (q.1 : String).data :=
    fun q hq => hwf.2.1 q (hperm.mem_iff.mp hq)
  have hn : ((sortPairs nss).map (fun q => q.1)).Nodup :=
    ((hperm.map (fun q => q.1)).nodup_iff).mpr hwf.1
  rw [find?_flat (sortPairs nss) ns k hdf hns hn]
  rw [alist.find?_perm hperm hn ns]
  cases hf : alist.find? nss ns with
  | none => rfl
  | some bag =>
    have hmem : (ns, bag) ∈ nss := alist.find?_mem nss ns bag hf
    simpa using find?_allLocal bag k (hwf.2.2 (ns, bag) hmem).1 hpriv

theorem nodup_group_keys (q : String × Attrs String)
    (hq : '.' ∉ (q.1 : String).data)
    (hbag : (q.2.map (fun p => p.1)).Nodup) :
    ((groupEntries q).map (fun p => p.1)).Nodup := by
  have h2 : ((allLocal q.2).map (fun p => p.1)).Nodup := by
    have h3 : ((sortPairs q.2).map (fun p => p.1)).Nodup :=
      (((sortPairs_perm q.2).map (fun p => p.1)).nodup_iff).mpr hbag
    have hsub : (allLocal q.2).Sublist (sortPairs q.2) := by
      rw [allLocal]
      exact List.filter_sublist (sortPairs q.2)
    exact List.Nodup.sublist (hsub.map (fun p => p.1)) h3
  have hinj : Function.Injective (dotKey q.1) :=
    fun a b he => (dotKey_inj q.1 a q.1 b hq hq he).2
  have h5 : (((allLocal q.2).map (fun p => p.1)).map (dotKey q.1)).Nodup :=
    h2.map hinj
  simpa [groupEntries, List.map_map, Function.comp] using h5

theorem nodup_flat_keys (gs : List (String × Attrs String))
    (hdf : ∀ q ∈ gs, '.' ∉ (q.1 : String).data)
    (hn : (gs.map (fun q => q.1)).Nodup)
    (hbags : ∀ q ∈ gs, (q.2.map (fun p => p.1)).Nodup) :
    ((gs.flatMap groupEntries).map (fun p => p.1)).Nodup := by
  induction gs with
  | nil => exact List.nodup_nil
  | cons q rest ih =>
    rw [List.flatMap_cons, List.map_append, List.nodup_append]
    refine ⟨nodup_group_keys q (hdf q (by simp)) (hbags q (by simp)),
      ih (fun x hx => hdf x (by simp [hx]))
        ((List.nodup_cons.mp (by simpa using hn)).2)
        (fun x hx => hbags x (by simp [hx])), ?_⟩
    rw [List.disjoint_left]
    intro a ha hb
    simp only [groupEntries, List.map_map, List.mem_map] at ha
    rcases ha with ⟨p, hp, hpe⟩
    rcases List.mem_map.mp hb with ⟨e, he, hee⟩
    rcases List.mem_flatMap.mp he with ⟨r, hr, hre⟩
    simp only [groupEntries, List.mem_map] at hre
    rcases hre with ⟨p2, hp2, hp2e⟩
    have hkey : dotKey q.1 p.1 = dotKey r.1 p2.1 := by
      rw [show dotKey q.1 p.1 = a from by simpa using hpe]
      rw [← hee, ← hp2e]
    have hqr : q.1 = r.1 :=
      (dotKey_inj q.1 p.1 r.1 p2.1 (hdf q (by simp))
        (hdf r (by simp [hr])) hkey).1
    have : q.1 ∉ rest.map (fun z => z.1) :=
      (List.nodup_cons.mp (by simpa using hn)).1
    exact this (hqr ▸ List.mem_map_of_mem _ hr)

theorem nodup_ownEntries (nss : Namespaces String) (hwf : NssWF nss) :
    ((ownEntries nss).map (fun p => p.1)).Nodup := by
  rw [ownEntries_eq]
  have hperm := sortPairs_perm nss
  exact nodup_flat_keys (sortPairs nss)
    (fun q hq => hwf.2.1 q (hperm.mem_iff.mp hq))
    (((hperm.map (fun q => q.1)).nodup_iff).mpr hwf.1)
    (fun q hq => (hwf.2.2 q (hperm.mem_iff.mp hq)).1)

/-- Chain lookup through the serialized merge: the merged dict holds, at
`ns.k`, exactly the chain-resolved (child-shadows-parent) value. -/
theorem find?_allEntries (c : Ctx String) (hwf : c.WF) (ns k : String)
    (hns : '.' ∉ ns.data) (hpriv : pyPrivate k = false) :
    alist.find? c.allEntries (dotKey ns k) = c.chainFind ns k := by
  induction c with
  | root i nss =>
    rw [show (Ctx.root i nss).allEntries =
        List.foldl (fun r p => alist.set r p.1 p.2) [] (ownEntries nss)
      from rfl]
    rw [alist.find?_foldl_set _ _ _ (nodup_ownEntries nss hwf)]
    rw [find?_ownEntries nss hwf ns k hns hpriv]
    simp only [Ctx.chainFind]
    cases (alist.find? nss ns).bind (fun a => alist.find? a k) <;> simp
  | child p i nss ih =>
    rw [show (Ctx.child p i nss).allEntries =
        List.foldl (fun r q => alist.set r q.1 q.2) p.allEntries
          (ownEntries nss) from rfl]
    rw [alist.find?_foldl_set _ _ _ (nodup_ownEntries nss hwf.1)]
    rw [find?_ownEntries nss hwf.1 ns k hns hpriv]
    rw [ih hwf.2]
    simp only [Ctx.chainFind]
    cases (alist.find? nss ns).bind (fun a => alist.find? a k) <;> simp

/-! #### Sortedness of each context's own contribution -/

/-- The claim's "namespace name then key" order on (namespace, key) pairs. -/
def pairLeNK (a b : String × String) : Prop :=
  pyStrLt a.1.data b.1.data = true ∨ (a.1 = b.1 ∧ pyLeKey a.2 b.2 = true)

theorem mem_insortPair {V : Type} (x z : String × V) (l : List (String × V))
    (h : z ∈ insortPair x l) : z = x ∨ z ∈ l := by
  have := (insortPair_perm x l).mem_iff.mp h
  simpa using this

theorem pairwise_insortPair {V : Type} (x : String × V)
    (l : List (String × V))
    (h : l.Pairwise (fun a b => pyLeKey a.1 b.1 = true)) :
    (insortPair x l).Pairwise (fun a b => pyLeKey a.1 b.1 = true) := by
  induction l with
  | nil => simp [insortPair]
  | cons y ys ih =>
    rcases List.pairwise_cons.mp h with ⟨hy, hys⟩
    rw [insortPair]
    by_cases hle : pyLeKey x.1 y.1
    · rw [if_pos hle]
      refine List.pairwise_cons.mpr ⟨?_, h⟩
      intro z hz
      rcases List.mem_cons.mp hz with rfl | hz2
      · exact hle
      · exact pyLeKey_trans _ _ _ hle (hy z hz2)
    · rw [if_neg hle]
      refine List.pairwise_cons.mpr ⟨?_, ih hys⟩
      intro z hz
      rcases mem_insortPair x z ys hz with rfl | hz2
      · exact pyLeKey_total _ _ (by simpa using hle)
      · exact hy z hz2

theorem pairwise_sortPairs {V : Type} (l : List (String × V)) :
    (sortPairs l).Pairwise (fun a b => pyLeKey a.1 b.1 = true) := by
  induction l with
  | nil => simp [sortPairs]
  | cons p ps ih => exact pairwise_insortPair p (sortPairs ps) ih

theorem pairwise_flat_aux (gs : List (String × Attrs String))
    (hsorted : gs.Pairwise (fun a b => pyLeKey a.1 b.1 = true))
    (hn : (gs.map (fun q => q.1)).Nodup)
    (hbagsorted : ∀ q ∈ gs,
      (allLocal q.2).Pairwise (fun a b => pyLeKey a.1 b.1 = true)) :
    (gs.flatMap
        (fun q => (allLocal q.2).map (fun p => ((q.1, p.1), p.2)))).Pairwise
      (fun a b => pairLeNK a.1 b.1) := by
  induction gs with
  | nil => simp
  | cons q rest ih =>
    rw [List.flatMap_cons, List.pairwise_append]
    rcases List.pairwise_cons.mp hsorted with ⟨hqle, hrest⟩
    rw [List.map_cons] at hn
    have hn2 := List.nodup_cons.mp hn
    refine ⟨?_, ?_, ?_⟩
    · refine List.pairwise_map.mpr ?_
      refine (hbagsorted q (by simp)).imp ?_
      intro a b hab
      exact Or.inr ⟨rfl, hab⟩
    · exact ih hrest hn2.2 (fun z hz => hbagsorted z (by simp [hz]))
    · intro a ha b hb
      rcases List.mem_map.mp ha with ⟨p, hp, rfl⟩
      rcases List.mem_flatMap.mp hb with ⟨r, hr, hbr⟩
      rcases List.mem_map.mp hbr with ⟨p2, hp2, rfl⟩
      left
      have hle : pyLeKey q.1 r.1 = true := hqle r hr
      have hne : q.1 ≠ r.1 := by
        intro he
        exact hn2.1 (he ▸ List.mem_map_of_mem (fun z => z.1) hr)
      exact pyStrLt_of_le_of_ne q.1 r.1 hle hne

/-- Within and across namespaces, one context's own contribution is emitted
sorted by namespace name then key. -/
theorem pairwise_ownPairs (nss : Namespaces String) (hwf : NssWF nss) :
    (ownPairs nss).Pairwise (fun a b => pairLeNK a.1 b.1) := by
  rw [ownPairs]
  exact pairwise_flat_aux (sortPairs nss) (pairwise_sortPairs nss)
    ((((sortPairs_perm nss).map (fun q => q.1)).nodup_iff).mpr hwf.1)
    (fun q _ => List.Pairwise.filter _ (pairwise_sortPairs q.2))

/-! ### Claim C7: statement -/

/-- **C7 (amended).**  Serializing a context produces one `key=value` line
per non-private entry of the merged dict; the merge takes the full chain
parent first and self last so that child values shadow parent values (the
merged dict holds at `ns.k` exactly the chain-resolved value); and each
context's *own* contribution is emitted sorted by namespace name then key.
An entry introduced by an ancestor, however, keeps the ancestor's position
when a descendant shadows it, so the whole output is *not* in general sorted
by namespace then key (see the counterexample). -/
theorem C7_serialize_merge (c : Ctx String) (hwf : c.WF) :
    c.serialize = String.join ((c.allEntries.filter
        (fun p => ! pyPrivate p.1)).map
      (fun p => p.1 ++ "=" ++ p.2 ++ "\n")) ∧
    (∀ ns k, '.' ∉ ns.data → pyPrivate k = false →
      alist.find? c.allEntries (dotKey ns k) = c.chainFind ns k) ∧
    (∀ nss : Namespaces String, NssWF nss →
      (ownPairs nss).Pairwise (fun a b => pairLeNK a.1 b.1)) := by
  refine ⟨rfl, ?_, pairwise_ownPairs⟩
  intro ns k hns hpriv
  exact find?_allEntries c hwf ns k hns hpriv

/-- Witness for the amended C7: on the counterexample chain, the merged dict
resolves `b.x` (ancestor) and `a.y` (self) to the chain values. -/
theorem C7_serialize_merge_witness :
    alist.find? (Ctx.child (Ctx.root false [("b", [("x", "1")])]) false
        [("a", [("y", "2")])]).allEntries (dotKey "a" "y")
      = (Ctx.child (Ctx.root false [("b", [("x", "1")])]) false
        [("a", [("y", "2")])]).chainFind "a" "y" ∧
    alist.find? (Ctx.child (Ctx.root false [("b", [("x", "1")])]) false
        [("a", [("y", "2")])]).allEntries (dotKey "b" "x")
      = (Ctx.child (Ctx.root false [("b", [("x", "1")])]) false
        [("a", [("y", "2")])]).chainFind "b" "x" := by
  have hwf : (Ctx.child (Ctx.root false [("b", [("x", "1")])]) false
      [("a", [("y", "2")])]).WF := by
    refine ⟨⟨?_, ?_, ?_⟩, ⟨?_, ?_, ?_⟩⟩ <;> decide
  have h := C7_serialize_merge (Ctx.child
    (Ctx.root false [("b", [("x", "1")])]) false [("a", [("y", "2")])]) hwf
  exact ⟨h.2.1 "a" "y" (by decide) (by decide),
    h.2.1 "b" "x" (by decide) (by decide)⟩

/-! ### Claim C10: ninja settings plumbing (ninja.py)

`NinjaFile.__init__` assigns `self.command = None`, `self.columns = None`
and `self.strict = None`, discarding the constructor arguments (only
`file_name` is used).  `configure_ninja` stores its `strict` argument under
`ninja.file_strict`, while `NinjaFile.write` reads
`ninja.file_columns_strict`, so the `strict` argument never reaches the
writer. -/

/-- A Python value as stored in a context by the ninja configuration code. -/
inductive PyVal where
  | none
  | str (s : String)
  | int (n : Int)
  | bool (b : Bool)
  deriving DecidableEq, Repr

/-- Python truthiness of the values above. -/
def pyTruthy : PyVal → Bool
  | .none => false
  | .str s => s ≠ ""
  | .int n => n ≠ 0
  | .bool b => b

/-- Python 2 `v < (n : int)` for the values above: numbers compare
numerically (`bool` is an `int` subclass), `None` sorts before every number,
and `str` sorts after every number (CPython 2 cross-type ordering). -/
def pyLtInt : PyVal → Int → Bool
  | .int m, n => m < n
  | .bool b, n => (if b then (1 : Int) else 0) < n
  | .str _, _ => false
  | .none, _ => true

/-- `ronin.projects.Project`, restricted to the field the ninja-file
constructor consumes. -/
structure NinjaProject where
  file_name : Option String

/-- The `NinjaFile` attributes assigned by `__init__`. -/
structure NinjaFileObj where
  command : PyVal
  file_name : PyVal
  columns : PyVal
  strict : PyVal

/-- `NinjaFile.__init__`: `self.command`, `self.columns` and `self.strict`
are assigned `None` regardless of the constructor arguments;
`self.file_name` is `file_name or ('%s.ninja' % project.file_name)` when the
project names a file, else `file_name or None`. -/
def NinjaFile.init (project : NinjaProject)
    (_command file_name _columns _strict : PyVal) : NinjaFileObj :=
  { command := PyVal.none
  , file_name :=
      if pyTruthy file_name then file_name
      else match project.file_name with
           | some fn => PyVal.str (fn ++ ".ninja")
           | Option.none => PyVal.none
  , columns := PyVal.none
  , strict := PyVal.none }

/-- `Context.fallback(value, name, default)`: a non-`None` value is returned
unchanged, `None` falls back to `get`. -/
def pyFallback (c : Ctx PyVal) (v : PyVal) (name : String) (d : PyVal) :
    Except CtxErr PyVal :=
  if v = PyVal.none then c.get name d else .ok v

/-- The first three attribute writes of `configure_ninja`. -/
def configure_ninja3 (ctx : Ctx PyVal)
    (command file_name columns : PyVal) : Except CtxErr (Ctx PyVal) :=
  match ctx.setAttrE "ninja" "command" command with
  | .error e => .error e
  | .ok c1 =>
    match c1.setAttrE "ninja" "file_name" file_name with
    | .error e => .error e
    | .ok c2 => c2.setAttrE "ninja" "file_columns" columns

/-- `configure_ninja`: four attribute writes on the current context.  Note
the last key: the `strict` argument is stored under `ninja.file_strict`. -/
def configure_ninja (ctx : Ctx PyVal)
    (command file_name columns strict : PyVal) : Except CtxErr (Ctx PyVal) :=
  match configure_ninja3 ctx command file_name columns with
  | .error e => .error e
  | .ok c3 => c3.setAttrE "ninja" "file_strict" strict

/-- The `_MINIMUM_COLUMNS_STRICT` floor. -/
def MINIMUM_COLUMNS_STRICT : Int := 30

/-- The column/strict settings `NinjaFile.write` actually uses: fallbacks on
`ninja.file_columns` / `ninja.file_columns_strict` (the object's fields,
always `None`, never short-circuit them) and the strict-mode clamp. -/
def NinjaFileObj.usedSettings (nf : NinjaFileObj) (ctx : Ctx PyVal) :
    Except CtxErr (PyVal × PyVal) :=
  match pyFallback ctx nf.columns "ninja.file_columns" (PyVal.int 100) with
  | .error e => .error e
  | .ok columns =>
    match pyFallback ctx nf.strict "ninja.file_columns_strict"
        (PyVal.bool false) with
    | .error e => .error e
    | .ok strict =>
      let columns2 :=
        if pyTruthy strict ∧ columns ≠ PyVal.none ∧
            pyLtInt columns MINIMUM_COLUMNS_STRICT = true then
          PyVal.int MINIMUM_COLUMNS_STRICT
        else columns
      .ok (columns2, strict)

/-- A namespace-attribute write leaves the composite bag lookup of every
other (namespace, key) pair unchanged. -/
theorem setAttr_bag_lookup_ne {V : Type} (nss : Namespaces V) (ns k : String)
    (v : V) (ns2 k2 : String) (hne : ns2 ≠ ns ∨ k2 ≠ k) :
    (alist.find?
        (alist.set
          (if (alist.find? nss ns).isSome then nss else nss ++ [(ns, [])]) ns
          (alist.set
            ((alist.find?
              (if (alist.find? nss ns).isSome then nss
               else nss ++ [(ns, [])]) ns).getD []) k v))
        ns2).bind (fun a => alist.find? a k2)
      = (alist.find? nss ns2).bind (fun a => alist.find? a k2) := by
  by_cases hns : ns2 = ns
  · have hk2 : k2 ≠ k := by
      rcases hne with h | h
      · exact absurd hns h
      · exact h
    subst hns
    rw [alist.find?_set, if_pos rfl]
    by_cases hmem : (alist.find? nss ns2).isSome
    · rcases Option.isSome_iff_exists.mp hmem with ⟨bag, hbag⟩
      rw [if_pos hmem, hbag]
      simp [alist.find?_set, hk2, hbag]
    · have hnone : alist.find? nss ns2 = none :=
        Option.not_isSome_iff_eq_none.mp hmem
      rw [if_neg hmem, alist.find?_app, hnone]
      simp [alist.find?_set, hk2]
  · rw [alist.find?_set, if_neg hns]
    by_cases hmem : (alist.find? nss ns).isSome
    · rw [if_pos hmem]
    · rw [if_neg hmem, alist.find?_app]
      have h1 : ¬ ns = ns2 := fun h => hns h.symm
      simp [h1]

/-- Any attribute-write attempt (successful or not) leaves every other
(namespace, key) read unchanged. -/
theorem getAttr_trySetAttr_ne {V : Type} (c : Ctx V) (ns k : String) (v : V)
    (ns2 k2 : String) (hne : ns2 ≠ ns ∨ k2 ≠ k) :
    ((c.trySetAttr ns k v).2).getAttr ns2 k2 = c.getAttr ns2 k2 := by
  by_cases hl : k ∈ nsLocal
  · simp only [Ctx.trySetAttr, if_pos hl]
    by_cases hmem : (alist.find? c.nss ns).isSome
    · simp only [if_pos hmem]
      cases c <;> rfl
    · simp only [if_neg hmem]
      exact getAttr_withNss_append_empty c ns ns2 k2
  · by_cases hi : c.immutable
    · simp only [Ctx.trySetAttr, if_neg hl, hi, if_true]
      by_cases hmem : (alist.find? c.nss ns).isSome
      · simp only [if_pos hmem]
        cases c <;> rfl
      · simp only [if_neg hmem]
        exact getAttr_withNss_append_empty c ns ns2 k2
    · simp only [Ctx.trySetAttr, if_neg hl, hi, if_false, Bool.false_eq_true]
      cases c with
      | root i nss =>
        simp only [Ctx.withNss, Ctx.nss, Ctx.getAttr]
        rw [setAttr_bag_lookup_ne nss ns k v ns2 k2 hne]
      | child p i nss =>
        simp only [Ctx.withNss, Ctx.nss, Ctx.getAttr]
        rw [setAttr_bag_lookup_ne nss ns k v ns2 k2 hne]

theorem getAttr_setAttrE {V : Type} (c c2 : Ctx V) (ns k : String) (v : V)
    (ns2 k2 : String) (hne : ns2 ≠ ns ∨ k2 ≠ k)
    (h : c.setAttrE ns k v = .ok c2) :
    c2.getAttr ns2 k2 = c.getAttr ns2 k2 := by
  have h2 : c2 = (c.trySetAttr ns k v).2 := by
    rw [Ctx.setAttrE] at h
    cases ht : c.trySetAttr ns k v with
    | mk fst snd =>
      rw [ht] at h
      cases fst with
      | ok u => simp at h; rw [h]
      | error e => simp at h
  rw [h2]
  exact getAttr_trySetAttr_ne c ns k v ns2 k2 hne

/-- `setAttrE` succeeds or fails independently of the written value, and for
a non-`LOCAL` key it fails exactly on an immutable context. -/
theorem setAttrE_cases {V : Type} (c : Ctx V) (ns k : String) (v : V)
    (hk : k ∉ nsLocal) :
    (c.immutable = true ∧ c.setAttrE ns k v = .error .immutableContext) ∨
    (c.immutable = false ∧ ∃ c2, c.setAttrE ns k v = .ok c2) := by
  rw [Ctx.setAttrE, Ctx.trySetAttr]
  cases hi : c.immutable with
  | true => left; simp [hk, hi]
  | false => right; simp [hk, hi]

theorem get_key_file_columns (c : Ctx PyVal) (d : PyVal) :
    c.get "ninja.file_columns" d
      = .ok ((c.chainFind "ninja" "file_columns").getD d) := by
  have he : ("ninja.file_columns" : String)
      = "ninja" ++ "." ++ "file_columns" := rfl
  rw [he, get_dotted c "ninja" "file_columns" d (by decide) (by decide)]

theorem get_key_file_columns_strict (c : Ctx PyVal) (d : PyVal) :
    c.get "ninja.file_columns_strict" d
      = .ok ((c.chainFind "ninja" "file_columns_strict").getD d) := by
  have he : ("ninja.file_columns_strict" : String)
      = "ninja" ++ "." ++ "file_columns_strict" := rfl
  rw [he, get_dotted c "ninja" "file_columns_strict" d (by decide) (by decide)]

theorem chainFind_congr {V : Type} (c c2 : Ctx V) (ns k : String)
    (h : c.getAttr ns k = c2.getAttr ns k) :
    c.chainFind ns k = c2.chainFind ns k := by
  have h1 := getAttr_eq_chainFind c ns k
  have h2 := getAttr_eq_chainFind c2 ns k
  rw [h1, h2] at h
  cases hx : c.chainFind ns k <;> cases hy : c2.chainFind ns k <;>
    rw [hx, hy] at h <;> simp at h
  · rw [h]

/-- **C10.** The column width and strict-mode settings used when writing the
build file come only from the context keys `ninja.file_columns` and
`ninja.file_columns_strict`: the `command`, `columns` and `strict` arguments
of the `NinjaFile` constructor are discarded (the fields are `None`
regardless of the arguments), and `configure_ninja` stores its `strict`
argument under `ninja.file_strict`, which `write` never reads — so for every
context and every pair of `strict` argument values the settings used by
`write` are identical. -/
theorem C10_strict_argument_ignored (proj : NinjaProject)
    (cmd fn cols s1 s2 : PyVal) (ctx : Ctx PyVal) :
    (NinjaFile.init proj cmd fn cols s1).command = PyVal.none ∧
    (NinjaFile.init proj cmd fn cols s1).columns = PyVal.none ∧
    (NinjaFile.init proj cmd fn cols s1).strict = PyVal.none ∧
    ((configure_ninja ctx cmd fn cols s1).bind
        (NinjaFile.init proj cmd fn cols s1).usedSettings)
      = ((configure_ninja ctx cmd fn cols s2).bind
        (NinjaFile.init proj cmd fn cols s2).usedSettings) := by
  refine ⟨rfl, rfl, rfl, ?_⟩
  have hinit : NinjaFile.init proj cmd fn cols s2
      = NinjaFile.init proj cmd fn cols s1 := rfl
  rw [hinit]
  cases h3 : configure_ninja3 ctx cmd fn cols with
  | error e => simp [configure_ninja, h3, Except.bind]
  | ok c3 =>
    simp only [configure_ninja, h3]
    rcases setAttrE_cases c3 "ninja" "file_strict" s1
        (by decide) with ⟨hi, he⟩ | ⟨hi, c41, he⟩
    · rcases setAttrE_cases c3 "ninja" "file_strict" s2
          (by decide) with ⟨_, he2⟩ | ⟨hi2, _, _⟩
      · rw [he, he2]
      · rw [hi] at hi2; cases hi2
    · rcases setAttrE_cases c3 "ninja" "file_strict" s2
          (by decide) with ⟨hi2, _⟩ | ⟨_, c42, he2⟩
      · rw [hi] at hi2; cases hi2
      · rw [he, he2]
        simp only [Except.bind]
        have hc41 : c41.getAttr "ninja" "file_columns"
            = c3.getAttr "ninja" "file_columns" :=
          getAttr_setAttrE c3 c41 "ninja" "file_strict" s1 "ninja"
            "file_columns" (Or.inr (by decide)) he
        have hc42 : c42.getAttr "ninja" "file_columns"
            = c3.getAttr "ninja" "file_columns" :=
          getAttr_setAttrE c3 c42 "ninja" "file_strict" s2 "ninja"
            "file_columns" (Or.inr (by decide)) he2
        have hs41 : c41.getAttr "ninja" "file_columns_strict"
            = c3.getAttr "ninja" "file_columns_strict" :=
          getAttr_setAttrE c3 c41 "ninja" "file_strict" s1 "ninja"
            "file_columns_strict" (Or.inr (by decide)) he
        have hs42 : c42.getAttr "ninja" "file_columns_strict"
            = c3.getAttr "ninja" "file_columns_strict" :=
          getAttr_setAttrE c3 c42 "ninja" "file_strict" s2 "ninja"
            "file_columns_strict" (Or.inr (by decide)) he2
        show NinjaFileObj.usedSettings
            (NinjaFile.init proj cmd fn cols s1) c41
          = NinjaFileObj.usedSettings
            (NinjaFile.init proj cmd fn cols s1) c42
        simp only [NinjaFileObj.usedSettings, pyFallback,
          NinjaFile.init, if_pos rfl, get_key_file_columns,
          get_key_file_columns_strict,
          chainFind_congr c41 c3 "ninja" "file_columns" hc41,
          chainFind_congr c42 c3 "ninja" "file_columns" hc42,
          chainFind_congr c41 c3 "ninja" "file_columns_strict" hs41,
          chainFind_congr c42 c3 "ninja" "file_columns_strict" hs42]

/-! ### Ninja-file generation (ninja.py `NinjaFile._write_rule`)

The generator walks the phase graph: `_write_rule` first resolves (via
`_get_inputs_from_names`) every phase listed in `inputs_from`, then records
the phase in `all_phase_outputs` (the memo map) and emits its rule and build
lines.  The model passes the memo map and the emitted `(indent, text)` lines
as explicit state and uses fuel for the unbounded recursion (the source
detects only direct self-reference, so an indirect cycle recurses forever;
fuel exhaustion models that non-termination).  The memo entry is recorded
together with the emitted lines at the end of the call; the source inserts
the (still empty) entry just before emitting, but nothing reads the map in
between, so the resulting states agree. -/

/-- Python character-count string slice `s[n:]`. -/
def strDrop (s : String) (n : Nat) : String := ⟨s.data.drop n⟩

/-- Python `s.startswith(pre)`. -/
def pyStarts (s pre : String) : Bool := pre.data.isPrefixOf s.data

/-- Python `s.endswith(os.sep)` with `os.sep = '/'`. -/
def pyEndsWithSlash (s : String) : Bool := s.data.getLast? = some '/'

/-- The `input_base += os.sep` normalization of `_write_rule`. -/
def sepAppend (s : String) : String :=
  if pyEndsWithSlash s then s else s ++ "/"

/-- One replacement pass of Python `str.replace` (left to right,
non-overlapping); fuel is the remaining input length, consumed one unit per
step, which suffices for a non-empty pattern. -/
def replaceAux (pat rep : List Char) : Nat → List Char → List Char
  | 0, l => l
  | _ + 1, [] => []
  | fuel + 1, c :: cs =>
    if pat.isPrefixOf (c :: cs) then
      rep ++ replaceAux pat rep fuel ((c :: cs).drop pat.length)
    else c :: replaceAux pat rep fuel cs

/-- Python `s.replace(pat, rep)` (callers only use non-empty patterns). -/
def pyReplace (s pat rep : String) : String :=
  if pat.data = [] then s
  else ⟨replaceAux pat.data rep.data s.data.length s.data⟩

/-- `ninja._escape`: double every dollar. -/
def escapeDollar (v : String) : String := pyReplace v "$" "$$"

/-- `ninja._pathify`: re-escape already-escaped spaces, escape bare spaces,
escape colons. -/
def pathify (v : String) : String :=
  pyReplace (pyReplace (pyReplace v "$ " "$$ ") " " "$ ") ":" "$:"

/-- `rule_name = phase_name.replace(' ', '_')`. -/
def ruleNameOf (phase_name : String) : String := pyReplace phase_name " " "_"

/-- Modelled from the spec: the Executor capability contract of §3/§6
(`ronin/executors.py` is not under src/): output-kind classification,
optional output-name prefix and extension override, optional dependency-file
path/kind, and the rendered command line (`phase.command_as_str(_escape)`,
rendered by the out-of-scope toolchain adapter). -/
structure ExecutorData where
  output_type : String
  output_prefix : Option String
  output_extension : Option String
  deps_file : Option String
  deps_type : Option String
  command_str : String
  deriving DecidableEq, Repr

/-- An `inputs_from` entry: a phase name, or a `Phase` object reference
(modelled as the index of the project entry it is identical to; an index out
of range models a foreign `Phase` object that is not in the project). -/
inductive Ref where
  | byName (n : String)
  | byIdx (i : Nat)
  deriving DecidableEq, Repr

/-- Modelled from the spec: the Phase record of §3 (`ronin/phases.py` is not
under src/): an ordered sequence of input paths, the phases it draws inputs
from, an executor, an optional explicit single output name and an optional
description. -/
structure PhaseData where
  inputs : List String
  inputs_from : List Ref
  executor : ExecutorData
  output : Option String
  description : Option String
  deriving DecidableEq, Repr

/-- `ronin.projects.Project.phases`: the name → phase dict (entries are
distinct `Phase` objects, so object identity coincides with the entry). -/
structure Proj where
  phases : List (String × PhaseData)
  deriving DecidableEq, Repr

def Proj.lookup (p : Proj) (n : String) : Option PhaseData :=
  alist.find? p.phases n

/-- Modelled from the spec: `utils.paths.join_path` re-roots a relative path
under a directory (§4.4 "re-root under the output directory"). -/
def join_path (a b : String) : String :=
  if pyEndsWithSlash a then a ++ b else a ++ "/" ++ b

/-- Drops a final `.ext` from a reversed character list: `some` of the rest
when a dot is found before any path separator. -/
def dropExtRev : List Char → Option (List Char)
  | [] => none
  | c :: cs =>
    if c = '.' then some cs
    else if c = '/' then none
    else dropExtRev cs

/-- Modelled from the spec: `utils.paths.change_extension` rewrites the
file-name extension, leaving the rest of the path unchanged ("with only its
extension changed"); a `None` extension leaves the path as is. -/
def change_extension (path : String) (ext : Option String) : String :=
  match ext with
  | none => path
  | some e =>
    (match dropExtRev path.data.reverse with
     | some r => (⟨r.reverse⟩ : String)
     | none => path) ++ "." ++ e

/-- Modelled from the spec: `utils.collections.dedup` deduplicates
"preserving first-occurrence order" (§4.2 step 3). -/
def dedupAux (seen : List String) : List String → List String
  | [] => []
  | x :: xs => if x ∈ seen then dedupAux seen xs else x :: dedupAux (x :: seen) xs

/-- Stable deduplication. -/
def dedup (l : List String) : List String := dedupAux [] l

/-- The path configuration `_write_rule` reads from the context
(`paths.input`, and the object/binary output directories after their
`paths.object`/`paths.object_relative` fallback). -/
structure Env where
  input_base : String
  object_base : String
  binary_base : String

/-- The `output_base` local of `_write_rule`: assigned only for the
`object`/`binary` output kinds; any other kind leaves it unbound
(a `NameError` at first use in the source). -/
def Env.outputBase (env : Env) (t : String) : Option String :=
  if t = "object" then some env.object_base
  else if t = "binary" then some env.binary_base
  else none

inductive GenError where
  | attrError (msg : String)
  | nameError
  | outOfFuel
  deriving DecidableEq, Repr

structure GenState where
  memo : List (String × List String)
  lines : List (Nat × String)
  deriving DecidableEq, Repr

/-- Resolution and validation of one `inputs_from` entry
(`_get_inputs_from_names` loop body, up to the recursive call): a `Phase`
object is looked up by identity (`get_phase_name`), a name through the
phases dict; a missing phase and a self-reference raise `AttributeError`. -/
def resolveRef (proj : Proj) (curName : String) (r : Ref) :
    Except GenError (String × PhaseData) :=
  match r with
  | .byIdx i =>
    match proj.phases[i]? with
    | none =>
      .error (.attrError "inputs_from contains a phase that is not in the project")
    | some (name, dep) =>
      if name = curName then .error (.attrError "inputs_from contains self")
      else .ok (name, dep)
  | .byName n =>
    match proj.lookup n with
    | none =>
      .error (.attrError "inputs_from is not a phase in the project")
    | some dep =>
      if n = curName then .error (.attrError "inputs_from contains self")
      else .ok (n, dep)

/-- Python `' '.join`. -/
def joinSpace : List String → String
  | [] => ""
  | [x] => x
  | x :: y :: xs => x ++ " " ++ joinSpace (y :: xs)

/-- The `depfile =` / `deps =` lines (emitted only for truthy values). -/
def depsLines (ex : ExecutorData) : List (Nat × String) :=
  match ex.deps_file with
  | none => []
  | some df =>
    if df = "" then []
    else
      (1, "depfile = " ++ df) ::
        (match ex.deps_type with
         | none => []
         | some dt => if dt = "" then [] else [(1, "deps = " ++ dt)])

/-- The `rule` block lines of one phase: blank line, `rule <name>`,
description (defaulting to `'<phase name> $out'`), command, optional deps
lines. -/
def ruleLines (phase_name : String) (phase : PhaseData) :
    List (Nat × String) :=
  [(0, ""), (0, "rule " ++ ruleNameOf phase_name),
   (1, "description = " ++ (phase.description.getD (phase_name ++ " $out"))),
   (1, "command = " ++ phase.executor.command_str)]
  ++ depsLines phase.executor

/-- The derived output of the fan-out mode for one input: strip the
(separator-terminated) input root if the input lies under it, rewrite the
extension, re-root under the output directory. -/
def fanOutOutput (ib output_base : String) (ext : Option String)
    (input : String) : String :=
  let o := if pyStarts input ib then strDrop input ib.data.length else input
  join_path output_base (change_extension o ext)

/-- The resolved input list of a phase (`_write_rule` lines 211-215): the
declared inputs, extended by each input-source phase's already-computed
outputs, deduplicated. -/
def ruleInputs (phase : PhaseData) (names : List String)
    (memo : List (String × List String)) : List String :=
  dedup (names.foldl (fun acc n => acc ++ (alist.find? memo n).getD []) phase.inputs)

/-- The build-edge lines and recorded outputs of one phase: a truthy
explicit output gives one edge for all inputs; otherwise one edge per input
(fan-out), and no edge at all when there are also no inputs. -/
def buildOut (env : Env) (rule_name : String) (phase : PhaseData)
    (inputs : List String) : Except GenError (List (Nat × String) × List String) :=
  let input_base := sepAppend env.input_base
  let fanOut : Except GenError (List (Nat × String) × List String) :=
    if inputs = [] then .ok ([], [])
    else
      match env.outputBase phase.executor.output_type with
      | none => .error .nameError
      | some ob =>
        let ext := phase.executor.output_extension
        .ok ((0, "") :: inputs.map (fun input =>
            (0, "build " ++ pathify (fanOutOutput input_base ob ext input)
              ++ ": " ++ rule_name ++ " " ++ pathify input)),
          inputs.map (fanOutOutput input_base ob ext))
  match phase.output with
  | none => fanOut
  | some out =>
    if out = "" then fanOut
    else
      match env.outputBase phase.executor.output_type with
      | none => .error .nameError
      | some ob =>
        let output := (phase.executor.output_prefix.getD "")
          ++ change_extension (join_path ob out) phase.executor.output_extension
        let line :=
          if inputs = [] then "build " ++ pathify output ++ ": " ++ rule_name
          else "build " ++ pathify output ++ ": " ++ rule_name ++ " "
            ++ joinSpace (inputs.map pathify)
        .ok ([(0, ""), (0, line)], [output])

mutual

/-- `NinjaFile._write_rule`: return if the phase is already in the memo,
else resolve the input-source phases first (emitting their blocks), then
emit this phase's rule and build lines and record its outputs. -/
def writeRule (fuel : Nat) (proj : Proj) (env : Env) (phase_name : String)
    (phase : PhaseData) (st : GenState) : Except GenError GenState :=
  match fuel with
  | 0 => .error .outOfFuel
  | f + 1 =>
    if (alist.find? st.memo phase_name).isSome then .ok st
    else
      match getInputsFrom f proj env phase_name phase phase.inputs_from st with
      | .error e => .error e
      | .ok (names, st1) =>
        let inputs := ruleInputs phase names st1.memo
        match buildOut env (ruleNameOf phase_name) phase inputs with
        | .error e => .error e
        | .ok (blines, phase_outputs) =>
          .ok { memo := st1.memo ++ [(phase_name, phase_outputs)]
              , lines := st1.lines ++ ruleLines phase_name phase ++ blines }

/-- `NinjaFile._get_inputs_from_names`: resolve and validate each
`inputs_from` entry in order, recursing into `_write_rule` for it, and
collect the names. -/
def getInputsFrom (fuel : Nat) (proj : Proj) (env : Env) (curName : String)
    (curPhase : PhaseData) (refs : List Ref) (st : GenState) :
    Except GenError (List String × GenState) :=
  match refs with
  | [] => .ok ([], st)
  | r :: rs =>
    match fuel with
    | 0 => .error .outOfFuel
    | f + 1 =>
      match resolveRef proj curName r with
      | .error e => .error e
      | .ok (name, dep) =>
        match writeRule f proj env name dep st with
        | .error e => .error e
        | .ok st1 =>
          match getInputsFrom f proj env curName curPhase rs st1 with
          | .error e => .error e
          | .ok (names, st2) => .ok (name :: names, st2)

end

/-- The phase loop of `NinjaFile.write`. -/
def writePhases (fuel : Nat) (proj : Proj) (env : Env) :
    List (String × PhaseData) → GenState → Except GenError GenState
  | [], st => .ok st
  | (n, p) :: rest, st =>
    match writeRule fuel proj env n p st with
    | .error e => .error e
    | .ok st1 => writePhases fuel proj env rest st1

/-- `NinjaFile.write`, from the phase loop on (the header comments before it
carry a timestamp and do not interact with the rule blocks). -/
def writeProject (fuel : Nat) (proj : Proj) (env : Env) :
    Except GenError GenState :=
  writePhases fuel proj env proj.phases ⟨[], []⟩

/-- The `rule <name>` header line of a phase. -/
def headerLine (phase_name : String) : Nat × String :=
  (0, "rule " ++ ruleNameOf phase_name)

/-- How many times a phase's rule header occurs in the emitted lines. -/
def headerCount (lines : List (Nat × String)) (phase_name : String) : Nat :=
  lines.count (headerLine phase_name)

/-! ### Claim C3: declaration errors -/

/-- A successful `_get_inputs_from_names` run has resolved and validated
every entry. -/
theorem getInputsFrom_ok_resolves (proj : Proj) (env : Env) (cur : String)
    (curp : PhaseData) :
    ∀ (refs : List Ref) (fuel : Nat) (st : GenState)
      (res : List String × GenState),
    getInputsFrom fuel proj env cur curp refs st = .ok res →
    ∀ r ∈ refs, ∃ a, resolveRef proj cur r = .ok a := by
  intro refs
  induction refs with
  | nil =>
    intro fuel st res _ r hr
    simp at hr
  | cons q qs ih =>
    intro fuel st res h r hr
    cases fuel with
    | zero => simp [getInputsFrom] at h
    | succ f =>
      rw [getInputsFrom] at h
      split at h
      · cases h
      · rename_i name dep hres
        split at h
        · cases h
        · rename_i st1 hw
          split at h
          · cases h
          · rename_i names st2 hgi
            rcases List.mem_cons.mp hr with rfl | hr2
            · exact ⟨(name, dep), hres⟩
            · exact ih f st1 (names, st2) hgi r hr2

/-- If any `inputs_from` entry of an unmemoized phase fails validation, its
`_write_rule` can never return normally. -/
theorem writeRule_never_ok_of_bad_ref (proj : Proj) (env : Env) (n : String)
    (p : PhaseData) (st : GenState) (r : Ref) (e : GenError)
    (hr : r ∈ p.inputs_from) (hres : resolveRef proj n r = .error e)
    (hmem : (alist.find? st.memo n).isSome = false) :
    ∀ fuel st2, writeRule fuel proj env n p st ≠ .ok st2 := by
  intro fuel st2 h
  cases fuel with
  | zero => simp [writeRule] at h
  | succ f =>
    rw [writeRule] at h
    rw [hmem] at h
    simp only [Bool.false_eq_true, if_false] at h
    split at h
    · cases h
    · rename_i names st1 hgi
      rcases getInputsFrom_ok_resolves proj env n p p.inputs_from f st
        (names, st1) hgi r hr with ⟨a, ha⟩
      rw [ha] at hres
      cases hres

/-- **C3.** Generation fails immediately with a declaration error
(`AttributeError`, a typed exception) when a phase lists as an input-source
a name not present in the project or the phase itself: (1) once such an
entry is reached, the error is raised at once, with the stated message, for
every fuel bound — in particular the self-reference error is raised without
recursing into resolution of that phase, whose `_write_rule` is never
invoked for it; (2) a missing name and a self-reference (by name or by
object identity) validate to exactly these errors; (3) `_write_rule` of the
offending phase can never complete normally. -/
theorem C3_declaration_errors (proj : Proj) (env : Env) (n : String)
    (p : PhaseData) (st : GenState) :
    (∀ r e rest fuel, resolveRef proj n r = .error e →
      getInputsFrom (fuel + 1) proj env n p (r :: rest) st = .error e) ∧
    (∀ m, proj.lookup m = none → resolveRef proj n (.byName m)
      = .error (.attrError "inputs_from is not a phase in the project")) ∧
    (∀ dep, proj.lookup n = some dep → resolveRef proj n (.byName n)
      = .error (.attrError "inputs_from contains self")) ∧
    (∀ i dep, proj.phases[i]? = some (n, dep) →
      resolveRef proj n (.byIdx i)
      = .error (.attrError "inputs_from contains self")) ∧
    (∀ r e, r ∈ p.inputs_from → resolveRef proj n r = .error e →
      (alist.find? st.memo n).isSome = false →
      ∀ fuel st2, writeRule fuel proj env n p st ≠ .ok st2) := by
  refine ⟨?_, ?_, ?_, ?_, ?_⟩
  · intro r e rest fuel hres
    rw [getInputsFrom, hres]
  · intro m hm
    simp [resolveRef, hm]
  · intro dep hdep
    simp [resolveRef, hdep]
  · intro i dep hidx
    simp [resolveRef, hidx]
  · intro r e hr hres hmem
    exact writeRule_never_ok_of_bad_ref proj env n p st r e hr hres hmem

/-- A concrete executor for witnesses. -/
def witnessExecutor : ExecutorData :=
  { output_type := "object"
  , output_prefix := Option.none
  , output_extension := some "o"
  , deps_file := Option.none
  , deps_type := Option.none
  , command_str := "cc -c $in -o $out" }

/-- A concrete environment for witnesses. -/
def witnessEnv : Env :=
  { input_base := "src", object_base := "out/obj", binary_base := "out/bin" }

/-- The phase and project of the C3 witness: `a` names the absent `b`. -/
def c3phaseA : PhaseData :=
  { inputs := ["x.c"], inputs_from := [Ref.byName "b"]
  , executor := witnessExecutor, output := Option.none
  , description := Option.none }

def c3projA : Proj := ⟨[("a", c3phaseA)]⟩

/-- The phase and project of the C3 witness: `s` lists itself. -/
def c3phaseS : PhaseData :=
  { inputs := [], inputs_from := [Ref.byName "s"]
  , executor := witnessExecutor, output := Option.none
  , description := Option.none }

def c3projS : Proj := ⟨[("s", c3phaseS)]⟩

/-- Witness for C3: a phase `a` whose `inputs_from` names the absent phase
`b`, and a phase `s` listing itself: the entry errors are raised immediately
and `_write_rule` cannot complete. -/
theorem C3_declaration_errors_witness :
    getInputsFrom 7 c3projA witnessEnv "a" c3phaseA [Ref.byName "b"]
        (GenState.mk [] [])
      = .error (.attrError "inputs_from is not a phase in the project") ∧
    getInputsFrom 7 c3projS witnessEnv "s" c3phaseS [Ref.byName "s"]
        (GenState.mk [] [])
      = .error (.attrError "inputs_from contains self") ∧
    writeRule 9 c3projA witnessEnv "a" c3phaseA (GenState.mk [] [])
      ≠ .ok (GenState.mk [] []) := by
  have h1 := C3_declaration_errors c3projA witnessEnv "a" c3phaseA
    (GenState.mk [] [])
  have h2 := C3_declaration_errors c3projS witnessEnv "s" c3phaseS
    (GenState.mk [] [])
  refine ⟨?_, ?_, ?_⟩
  · exact h1.1 (Ref.byName "b") _ [] 6 (h1.2.1 "b" (by decide))
  · exact h2.1 (Ref.byName "s") _ [] 6 (h2.2.2.1 c3phaseS (by decide))
  · exact h1.2.2.2.2 (Ref.byName "b") _ (by decide)
      (h1.2.1 "b" (by decide)) (by decide) 9 (GenState.mk [] [])

/-! ### Claim C8: fan-out output round trip -/

/-- Stripping the (separator-terminated) output-root prefix back off a
produced path. -/
def stripRoot (p root : String) : Option String :=
  if pyStarts p (sepAppend root) then
    some (strDrop p (sepAppend root).data.length)
  else Option.none

theorem pyStarts_append (pre rest : String) :
    pyStarts (pre ++ rest) pre = true := by
  simp only [pyStarts, String.data_append]
  exact List.isPrefixOf_iff_prefix.mpr (List.prefix_append _ _)

theorem strDrop_append (pre rest : String) :
    strDrop (pre ++ rest) pre.data.length = rest := by
  simp only [strDrop, String.data_append, List.drop_left]

theorem join_path_eq (a b : String) : join_path a b = sepAppend a ++ b := by
  rw [join_path, sepAppend]
  by_cases h : pyEndsWithSlash a
  · rw [if_pos h, if_pos h]
  · rw [if_neg h, if_neg h]

/-- **C8.** For every output path produced by the fan-out mode from an input
that lies under the configured input root (`input = root-with-separator ++
rel`), stripping the output-root prefix back off recovers exactly the input
path relative to the input root with only its extension changed. -/
theorem C8_fanout_round_trip (input_base output_base rel : String)
    (ext : Option String) (input : String)
    (hunder : input = sepAppend input_base ++ rel) :
    stripRoot (fanOutOutput (sepAppend input_base) output_base ext input)
        output_base
      = some (change_extension rel ext) := by
  subst hunder
  have h1 : fanOutOutput (sepAppend input_base) output_base ext
      (sepAppend input_base ++ rel)
      = join_path output_base (change_extension rel ext) := by
    show join_path output_base (change_extension
      (if pyStarts (sepAppend input_base ++ rel) (sepAppend input_base)
       then strDrop (sepAppend input_base ++ rel)
         ((sepAppend input_base).data.length)
       else (sepAppend input_base ++ rel)) ext)
      = join_path output_base (change_extension rel ext)
    rw [if_pos (pyStarts_append _ _), strDrop_append]
  rw [h1, join_path_eq, stripRoot, if_pos (pyStarts_append _ _),
    strDrop_append]

/-- Witness for C8 at a concrete input. -/
theorem C8_fanout_round_trip_witness :
    stripRoot (fanOutOutput (sepAppend "src") "out/obj" (some "o")
        ("src/" ++ "sub/main.c")) "out/obj"
      = some (change_extension "sub/main.c" (some "o")) ∧
    change_extension "sub/main.c" (some "o") = "sub/main.o" := by
  constructor
  · exact C8_fanout_round_trip "src" "out/obj" "sub/main.c" (some "o")
      ("src/" ++ "sub/main.c") (by decide)
  · decide

/-! ### Claim C9: resolved input list -/

theorem dedupAux_sublist (l seen : List String) :
    (dedupAux seen l).Sublist l := by
  induction l generalizing seen with
  | nil => exact List.Sublist.refl []
  | cons x xs ih =>
    rw [dedupAux]
    by_cases h : x ∈ seen
    · rw [if_pos h]
      exact (ih seen).cons x
    · rw [if_neg h]
      exact (ih (x :: seen)).cons₂ x

theorem dedupAux_nodup (l : List String) : ∀ seen : List String,
    (dedupAux seen l).Nodup ∧ ∀ x ∈ dedupAux seen l, x ∉ seen := by
  induction l with
  | nil => intro seen; exact ⟨List.nodup_nil, by simp [dedupAux]⟩
  | cons x xs ih =>
    intro seen
    rw [dedupAux]
    by_cases h : x ∈ seen
    · rw [if_pos h]
      exact ih seen
    · rw [if_neg h]
      rcases ih (x :: seen) with ⟨hnd, hnotin⟩
      refine ⟨List.nodup_cons.mpr ⟨?_, hnd⟩, ?_⟩
      · intro hx
        exact hnotin x hx (List.mem_cons_self _ _)
      · intro z hz
        rcases List.mem_cons.mp hz with rfl | hz2
        · exact h
        · intro hzs
          exact hnotin z hz2 (List.mem_cons_of_mem _ hzs)

theorem dedupAux_complete (l : List String) : ∀ (seen : List String)
    (x : String), x ∈ l → x ∉ seen → x ∈ dedupAux seen l := by
  induction l with
  | nil => intro seen x hx; simp at hx
  | cons y ys ih =>
    intro seen x hx hxs
    rw [dedupAux]
    by_cases h : y ∈ seen
    · rw [if_pos h]
      rcases List.mem_cons.mp hx with rfl | hx2
      · exact absurd h hxs
      · exact ih seen x hx2 hxs
    · rw [if_neg h]
      rcases List.mem_cons.mp hx with rfl | hx2
      · exact List.mem_cons_self _ _
      · by_cases hxy : x = y
        · subst hxy
          exact List.mem_cons_self _ _
        · refine List.mem_cons_of_mem _ (ih (y :: seen) x hx2 ?_)
          intro hmem
          rcases List.mem_cons.mp hmem with h2 | h2
          · exact hxy h2
          · exact hxs h2

theorem foldl_append_eq (f : String → List String) (names : List String) :
    ∀ init : List String,
    names.foldl (fun acc n => acc ++ f n) init = init ++ (names.map f).flatten := by
  induction names with
  | nil => intro init; simp
  | cons n ns ih =>
    intro init
    rw [List.foldl_cons, ih (init ++ f n)]
    simp [List.append_assoc]

/-- **C9.** The resolved input sequence of a phase is its own declared
inputs followed by the concatenation of each input-source phase's
already-computed outputs, deduplicated preserving first-occurrence order
(a stable deduplication: the result is an order-preserving duplicate-free
subsequence containing every input); in particular distinct inputs
`[a, b, a, c]` resolve to exactly `[a, b, c]`. -/
theorem C9_resolved_inputs (phase : PhaseData) (names : List String)
    (memo : List (String × List String)) (a b c : String)
    (hab : a ≠ b) (hac : a ≠ c) (hbc : b ≠ c) :
    ruleInputs phase names memo
      = dedup (phase.inputs
          ++ (names.map (fun n => (alist.find? memo n).getD [])).flatten) ∧
    (∀ l : List String,
      (dedup l).Sublist l ∧ (dedup l).Nodup ∧ ∀ x ∈ l, x ∈ dedup l) ∧
    dedup [a, b, a, c] = [a, b, c] := by
  refine ⟨?_, ?_, ?_⟩
  · rw [ruleInputs, foldl_append_eq]
  · intro l
    exact ⟨dedupAux_sublist l [], (dedupAux_nodup l []).1,
      fun x hx => dedupAux_complete l [] x hx (by simp)⟩
  · have hba : ¬ b = a := fun h => hab h.symm
    have hca : ¬ c = a := fun h => hac h.symm
    have hcb : ¬ c = b := fun h => hbc h.symm
    simp [dedup, dedupAux, hba, hca, hcb]

/-- Witness for C9 at concrete inputs. -/
theorem C9_resolved_inputs_witness :
    ruleInputs (PhaseData.mk ["a", "b", "a", "c"] [] witnessExecutor
        Option.none Option.none) [] []
      = dedup (["a", "b", "a", "c"] ++ ([] : List (List String)).flatten) ∧
    dedup ["a", "b", "a", "c"] = ["a", "b", "c"] := by
  have h := C9_resolved_inputs (PhaseData.mk ["a", "b", "a", "c"] []
      witnessExecutor Option.none Option.none) [] [] "a" "b" "c"
    (by decide) (by decide) (by decide)
  exact ⟨h.1, h.2.2⟩

/-! ### Claim C2: topological emission and uniqueness of rule blocks -/

def projNames (proj : Proj) : List String := proj.phases.map (fun q => q.1)

def memoNames (st : GenState) : List String := st.memo.map (fun q => q.1)

/-- Acyclicity of the resolvable dependency graph, witnessed by a rank
function that strictly decreases along input-source edges. -/
def RankOK (proj : Proj) (rank : String → Nat) : Prop :=
  ∀ b pb r a da, (b, pb) ∈ proj.phases → r ∈ pb.inputs_from →
    resolveRef proj b r = .ok (a, da) → rank a < rank b

/-- Rule names are injective on the project (distinct phase names keep
distinct `rule` headers after space normalization). -/
def RuleNamesInj (proj : Proj) : Prop :=
  ∀ m ∈ projNames proj, ∀ n ∈ projNames proj,
    ruleNameOf m = ruleNameOf n → m = n

/-- `a`'s rule header occurs before `b`'s in the emitted lines. -/
def headerSplit (lines : List (Nat × String)) (a b : String) : Prop :=
  ∃ l1 l2 l3, lines = l1 ++ headerLine a :: (l2 ++ headerLine b :: l3)

/-- The generation invariant: the memo has distinct project names, a
project phase's header is emitted exactly once if and only if it is
memoized, and every resolvable dependency of a memoized phase has its
header emitted earlier. -/
def Inv (proj : Proj) (st : GenState) : Prop :=
  (memoNames st).Nodup ∧
  (∀ n ∈ memoNames st, n ∈ projNames proj) ∧
  (∀ n ∈ projNames proj,
    headerCount st.lines n = if n ∈ memoNames st then 1 else 0) ∧
  (∀ b pb r a da, (b, pb) ∈ proj.phases → r ∈ pb.inputs_from →
    resolveRef proj b r = .ok (a, da) → b ∈ memoNames st →
    headerSplit st.lines a b)

theorem mem_of_find?_isSome {V : Type} (l : List (String × V)) (n : String)
    (h : (alist.find? l n).isSome) : n ∈ l.map (fun q => q.1) := by
  rcases Option.isSome_iff_exists.mp h with ⟨v, hv⟩
  exact List.mem_map_of_mem _ (alist.find?_mem l n v hv)

theorem resolveRef_ok_mem (proj : Proj) (cur : String) (r : Ref)
    (a : String) (da : PhaseData) (h : resolveRef proj cur r = .ok (a, da)) :
    (a, da) ∈ proj.phases := by
  cases r with
  | byIdx i =>
    rw [resolveRef] at h
    split at h
    · cases h
    · rename_i name dep hg
      split at h
      · cases h
      · have he : (name, dep) = (a, da) := by simpa using h
        rw [← he]
        exact List.getElem?_mem hg
  | byName n =>
    rw [resolveRef] at h
    split at h
    · cases h
    · rename_i dep hg
      split at h
      · cases h
      · have he : (n, dep) = (a, da) := by simpa using h
        rw [← he]
        exact alist.find?_mem proj.phases n dep hg

theorem mem_unique_of_nodup {V : Type} (l : List (String × V))
    (hn : (l.map (fun q => q.1)).Nodup) (n : String) (p q : V)
    (hp : (n, p) ∈ l) (hq : (n, q) ∈ l) : p = q := by
  induction l with
  | nil => simp at hp
  | cons e rest ih =>
    rw [List.map_cons, List.nodup_cons] at hn
    rcases List.mem_cons.mp hp with rfl | hp2
    · rcases List.mem_cons.mp hq with he | hq2
      · exact (Prod.ext_iff.mp he.symm).2
      · exact absurd (List.mem_map_of_mem (fun z => z.1) hq2) hn.1
    · rcases List.mem_cons.mp hq with rfl | hq2
      · exact absurd (List.mem_map_of_mem (fun z => z.1) hp2) hn.1
      · exact ih hn.2 hp2 hq2

theorem headerSplit_append (lines extra : List (Nat × String)) (a b : String)
    (h : headerSplit lines a b) : headerSplit (lines ++ extra) a b := by
  rcases h with ⟨l1, l2, l3, he⟩
  exact ⟨l1, l2, l3 ++ extra, by rw [he]; simp⟩

theorem rule_string_ne_empty (x : String) : "rule " ++ x ≠ "" := by
  intro h
  have h2 := congrArg String.data h
  rw [String.data_append] at h2
  have h3 : ("rule " : String).data = ['r', 'u', 'l', 'e', ' '] := rfl
  rw [h3] at h2
  cases h2

theorem rule_string_ne_build (x y : String) :
    "rule " ++ x ≠ "build " ++ y := by
  intro h
  have h2 := congrArg String.data h
  rw [String.data_append, String.data_append] at h2
  have h3 : ("rule " : String).data = ['r', 'u', 'l', 'e', ' '] := rfl
  have h4 : ("build " : String).data = ['b', 'u', 'i', 'l', 'd', ' '] := rfl
  rw [h3, h4] at h2
  simp at h2

/-- The rule block of phase `n` carries exactly one header line, and only
`n`'s own rule name. -/
theorem headerCount_ruleLines (n : String) (p : PhaseData) (m : String) :
    headerCount (ruleLines n p) m
      = if ruleNameOf m = ruleNameOf n then 1 else 0 := by
  rw [ruleLines, headerCount, headerLine]
  by_cases he : ruleNameOf m = ruleNameOf n
  · rw [if_pos he, he]
    have h1 : ((0 : Nat), "rule " ++ ruleNameOf n)
        ≠ (1, "description = " ++ (p.description.getD (n ++ " $out"))) := by
      simp
    have h2 : ((0 : Nat), "rule " ++ ruleNameOf n)
        ≠ (1, "command = " ++ p.executor.command_str) := by simp
    simp [List.count_append, List.count_cons, h1, h2,
      rule_string_ne_empty (ruleNameOf n)]
    rw [depsLines]
    cases p.executor.deps_file with
    | none => rfl
    | some df =>
      by_cases hdf : df = ""
      · simp [hdf]
      · simp [hdf]
        cases p.executor.deps_type with
        | none => rfl
        | some dt =>
          by_cases hdt : dt = "" <;> simp [hdt]
  · rw [if_neg he]
    have h0 : ("rule " ++ ruleNameOf m) ≠ ("rule " ++ ruleNameOf n) := by
      intro hx
      apply he
      have := congrArg String.data hx
      rw [String.data_append, String.data_append] at this
      exact str_data_ext _ _ (List.append_cancel_left this)
    have h1 : ((0 : Nat), "rule " ++ ruleNameOf m)
        ≠ (0, "rule " ++ ruleNameOf n) := by simp [h0]
    have h2 : ((0 : Nat), "rule " ++ ruleNameOf m)
        ≠ (1, "description = " ++ (p.description.getD (n ++ " $out"))) := by
      simp
    have h3 : ((0 : Nat), "rule " ++ ruleNameOf m)
        ≠ (1, "command = " ++ p.executor.command_str) := by simp
    simp [List.count_append, List.count_cons, h1, h2, h3,
      rule_string_ne_empty (ruleNameOf m)]
    rw [depsLines]
    cases p.executor.deps_file with
    | none => rfl
    | some df =>
      by_cases hdf : df = ""
      · simp [hdf]
      · simp [hdf]
        cases p.executor.deps_type with
        | none => rfl
        | some dt =>
          by_cases hdt : dt = "" <;> simp [hdt]

/-- Heads of appended strings. -/
theorem head_append_left (s : String) (c : Char)
    (h : ∃ a, s.data = c :: a) (x : String) :
    ∃ a, (s ++ x).data = c :: a := by
  rcases h with ⟨a, ha⟩
  exact ⟨a ++ x.data, by rw [String.data_append, ha]; rfl⟩

theorem rule_head (x : String) :
    ∃ a, ("rule " ++ x).data = 'r' :: a :=
  head_append_left "rule " 'r' ⟨['u', 'l', 'e', ' '], rfl⟩ x

theorem build_head (x : String) :
    ∃ a, ("build " ++ x).data = 'b' :: a :=
  head_append_left "build " 'b' ⟨['u', 'i', 'l', 'd', ' '], rfl⟩ x

/-- Every line emitted by `buildOut` is blank or a `build ` edge. -/
theorem buildOut_lines_shape (env : Env) (rule_name : String)
    (phase : PhaseData) (inputs : List String)
    (blines : List (Nat × String)) (outs : List String)
    (h : buildOut env rule_name phase inputs = .ok (blines, outs)) :
    ∀ e ∈ blines, e.2 = "" ∨ ∃ a, e.2.data = 'b' :: a := by
  have hfan : ∀ (ob : String) (e : Nat × String),
      e ∈ (0, "") :: inputs.map (fun input =>
        ((0 : Nat), "build "
          ++ pathify (fanOutOutput (sepAppend env.input_base) ob
            phase.executor.output_extension input)
          ++ ": " ++ rule_name ++ " " ++ pathify input)) →
      e.2 = "" ∨ ∃ a, e.2.data = 'b' :: a := by
    intro ob e he
    rcases List.mem_cons.mp he with rfl | he2
    · exact Or.inl rfl
    · rcases List.mem_map.mp he2 with ⟨inp, _, rfl⟩
      refine Or.inr ?_
      exact head_append_left _ 'b' (head_append_left _ 'b'
        (head_append_left _ 'b' (head_append_left _ 'b'
          (build_head _) _) _) _) _
  rw [buildOut] at h
  split at h
  · split at h
    · have hb : blines = [] := by
        have := h
        simp at this
        exact this.1
      rw [hb]
      intro e he
      simp at he
    · split at h
      · cases h
      · rename_i ob hob
        have hb : blines = (0, "") :: inputs.map (fun input =>
            ((0 : Nat), "build "
              ++ pathify (fanOutOutput (sepAppend env.input_base) ob
                phase.executor.output_extension input)
              ++ ": " ++ rule_name ++ " " ++ pathify input)) := by
          have := h
          simp at this
          exact this.1.symm
        rw [hb]
        exact fun e he => hfan ob e he
  · split at h
    · split at h
      · have hb : blines = [] := by
          have := h
          simp at this
          exact this.1
        rw [hb]
        intro e he
        simp at he
      · split at h
        · cases h
        · rename_i ob hob
          have hb : blines = (0, "") :: inputs.map (fun input =>
              ((0 : Nat), "build "
                ++ pathify (fanOutOutput (sepAppend env.input_base) ob
                  phase.executor.output_extension input)
                ++ ": " ++ rule_name ++ " " ++ pathify input)) := by
            have := h
            simp at this
            exact this.1.symm
          rw [hb]
          exact fun e he => hfan ob e he
    · split at h
      · cases h
      · rename_i outv ob hob
        simp only [Except.ok.injEq, Prod.mk.injEq] at h
        rcases h with ⟨h1, _⟩
        rw [← h1]
        intro e he
        rcases List.mem_cons.mp he with rfl | he2
        · exact Or.inl rfl
        · rcases List.mem_cons.mp he2 with rfl | he3
          · refine Or.inr ?_
            by_cases hin : inputs = []
            · simp only [hin, if_pos]
              exact head_append_left _ 'b' (head_append_left _ 'b'
                (build_head _) _) _
            · simp only [hin, if_neg, if_false]
              exact head_append_left _ 'b' (head_append_left _ 'b'
                (head_append_left _ 'b' (head_append_left _ 'b'
                  (build_head _) _) _) _) _
          · simp at he3

/-- Build-edge lines carry no rule header. -/
theorem headerCount_buildOut (env : Env) (rule_name : String)
    (phase : PhaseData) (inputs : List String)
    (blines : List (Nat × String)) (outs : List String) (m : String)
    (h : buildOut env rule_name phase inputs = .ok (blines, outs)) :
    headerCount blines m = 0 := by
  rw [headerCount, headerLine, List.count_eq_zero]
  intro hmem
  rcases buildOut_lines_shape env rule_name phase inputs blines outs h
    _ hmem with he | ⟨a, ha⟩
  · exact rule_string_ne_empty (ruleNameOf m) (by simpa using he)
  · rcases rule_head (ruleNameOf m) with ⟨b, hb⟩
    rw [show ((0 : Nat), "rule " ++ ruleNameOf m).2
      = "rule " ++ ruleNameOf m from rfl, hb] at ha
    cases ha

theorem find?_isSome_of_mem_keys {V : Type} (l : List (String × V))
    (n : String) (h : n ∈ l.map (fun q => q.1)) :
    (alist.find? l n).isSome := by
  induction l with
  | nil => simp at h
  | cons p ps ih =>
    by_cases hp : p.1 = n
    · simp [hp]
    · rw [List.map_cons] at h
      rcases List.mem_cons.mp h with he | h2
      · exact absurd he.symm hp
      · simpa [hp] using ih h2

/-- The statement proved about `writeRule` at a given fuel. -/
def WStmt (fuel : Nat) : Prop :=
  ∀ (proj : Proj) (env : Env) (rank : String → Nat) (n : String)
    (p : PhaseData) (st st' : GenState),
    (projNames proj).Nodup → RuleNamesInj proj → RankOK proj rank →
    (n, p) ∈ proj.phases → Inv proj st →
    writeRule fuel proj env n p st = .ok st' →
    (∃ dm, st'.memo = st.memo ++ dm ∧
      ∀ m ∈ dm.map (fun q => q.1), m ∈ projNames proj ∧ rank m ≤ rank n) ∧
    (∃ dl, st'.lines = st.lines ++ dl) ∧
    n ∈ memoNames st' ∧ Inv proj st'

/-- The statement proved about `getInputsFrom` at a given fuel. -/
def GStmt (fuel : Nat) : Prop :=
  ∀ (proj : Proj) (env : Env) (rank : String → Nat) (cur : String)
    (curp : PhaseData) (refs : List Ref) (st st' : GenState)
    (names : List String),
    (projNames proj).Nodup → RuleNamesInj proj → RankOK proj rank →
    (cur, curp) ∈ proj.phases → (∀ r ∈ refs, r ∈ curp.inputs_from) →
    Inv proj st →
    getInputsFrom fuel proj env cur curp refs st = .ok (names, st') →
    (∃ dm, st'.memo = st.memo ++ dm ∧
      ∀ m ∈ dm.map (fun q => q.1), m ∈ projNames proj ∧ rank m < rank cur) ∧
    (∃ dl, st'.lines = st.lines ++ dl) ∧
    (∀ a ∈ names, a ∈ memoNames st') ∧
    (∀ r ∈ refs, ∀ a da, resolveRef proj cur r = .ok (a, da) → a ∈ names) ∧
    Inv proj st'

theorem genInv : ∀ fuel : Nat, WStmt fuel ∧ GStmt fuel := by
  intro fuel
  induction fuel with
  | zero =>
    constructor
    · intro proj env rank n p st st' _ _ _ _ _ h
      simp [writeRule] at h
    · intro proj env rank cur curp refs st st' names _ _ _ _ _ hInv h
      cases refs with
      | nil =>
        rw [getInputsFrom] at h
        simp only [Except.ok.injEq, Prod.mk.injEq] at h
        obtain ⟨h1, h2⟩ := h
        subst h2
        refine ⟨⟨[], by simp, by simp⟩, ⟨[], by simp⟩, ?_, ?_, hInv⟩
        · intro a ha; rw [← h1] at ha; simp at ha
        · intro r hr; simp at hr
      | cons r rs => simp [getInputsFrom] at h
  | succ f ih =>
    constructor
    · -- writeRule at fuel f+1
      intro proj env rank n p st st' hN hR hA hnp hInv h
      rw [writeRule] at h
      by_cases hmem : (alist.find? st.memo n).isSome
      · rw [if_pos hmem] at h
        have hst : st = st' := by simpa using h
        subst hst
        exact ⟨⟨[], by simp, by simp⟩, ⟨[], by simp⟩,
          mem_of_find?_isSome st.memo n hmem, hInv⟩
      · rw [if_neg hmem] at h
        split at h
        · cases h
        · rename_i names st1 hgi
          simp only [] at h
          split at h
          · cases h
          · rename_i blines outs hbo
            have hst' : st' = GenState.mk (st1.memo ++ [(n, outs)])
                (st1.lines ++ ruleLines n p ++ blines) :=
              (Except.ok.inj h).symm
            rcases ih.2 proj env rank n p p.inputs_from st st1 names hN hR hA
              hnp (fun r hr => hr) hInv hgi with
              ⟨⟨dm, hdm, hdmp⟩, ⟨dl, hdl⟩, hmemb, hres, hInv1⟩
            have hnmem0 : n ∉ memoNames st := by
              intro hx
              exact hmem (find?_isSome_of_mem_keys st.memo n hx)
            have hmemo1 : memoNames st1
                = memoNames st ++ dm.map (fun q => q.1) := by
              rw [memoNames, hdm, List.map_append]
              rfl
            have hnmem1 : n ∉ memoNames st1 := by
              rw [hmemo1]
              intro hx
              rcases List.mem_append.mp hx with hx1 | hx2
              · exact hnmem0 hx1
              · exact Nat.lt_irrefl (rank n) (hdmp n hx2).2
            have hmemo' : memoNames st' = memoNames st1 ++ [n] := by
              rw [hst']
              rw [memoNames, memoNames, List.map_append]
              rfl
            refine ⟨⟨dm ++ [(n, outs)], ?_, ?_⟩,
              ⟨dl ++ ruleLines n p ++ blines, ?_⟩, ?_, ?_, ?_, ?_, ?_⟩
            · rw [hst']
              rw [hdm]
              simp
            · intro m hm
              rw [List.map_append] at hm
              rcases List.mem_append.mp hm with hm1 | hm2
              · exact ⟨(hdmp m hm1).1, Nat.le_of_lt (hdmp m hm1).2⟩
              · have : m = n := by simpa using hm2
                subst this
                exact ⟨List.mem_map_of_mem (fun q => q.1) hnp, Nat.le_refl _⟩
            · rw [hst', hdl]
              simp
            · rw [hmemo']
              simp
            · -- Nodup
              rw [hmemo']
              rw [List.nodup_append]
              refine ⟨hInv1.1, List.nodup_singleton n, ?_⟩
              rw [List.disjoint_left]
              intro a ha hb
              have : a = n := by simpa using hb
              subst this
              exact hnmem1 ha
            · -- memo names in project
              intro m hm
              rw [hmemo'] at hm
              rcases List.mem_append.mp hm with hm1 | hm2
              · exact hInv1.2.1 m hm1
              · have : m = n := by simpa using hm2
                subst this
                exact List.mem_map_of_mem (fun q => q.1) hnp
            · -- header counts
              intro m hmproj
              have hlines' : st'.lines
                  = st1.lines ++ (ruleLines n p ++ blines) := by
                rw [hst']
                simp
              rw [hlines', headerCount, List.count_append, List.count_append]
              have hc1 := hInv1.2.2.1 m hmproj
              rw [headerCount] at hc1
              have hcb : List.count (headerLine m) blines = 0 := by
                have := headerCount_buildOut env (ruleNameOf n) p
                  (ruleInputs p names st1.memo) blines outs m hbo
                rwa [headerCount] at this
              have hcr := headerCount_ruleLines n p m
              rw [headerCount] at hcr
              by_cases hmn : m = n
              · subst hmn
                rw [hc1, if_neg hnmem1, hcr, if_pos rfl, hcb]
                rw [if_pos (by rw [hmemo']; simp)]
              · have hrn : ruleNameOf m ≠ ruleNameOf n := by
                  intro he
                  exact hmn (hR m hmproj n
                    (List.mem_map_of_mem (fun q => q.1) hnp) he)
                rw [hc1, hcr, if_neg hrn, hcb]
                have hmm : (m ∈ memoNames st') ↔ (m ∈ memoNames st1) := by
                  rw [hmemo']
                  constructor
                  · intro hx
                    rcases List.mem_append.mp hx with hx1 | hx2
                    · exact hx1
                    · exact absurd (by simpa using hx2) hmn
                  · intro hx
                    exact List.mem_append.mpr (Or.inl hx)
                by_cases hm1 : m ∈ memoNames st1
                · rw [if_pos hm1, if_pos (hmm.mpr hm1)]
                · rw [if_neg hm1, if_neg (fun hx => hm1 (hmm.mp hx))]
            · -- ordering invariant
              intro b pb r' a' da' hb hr' hres' hbmem
              have hlines' : st'.lines
                  = st1.lines ++ (ruleLines n p ++ blines) := by
                rw [hst']
                simp
              rw [hmemo'] at hbmem
              rcases List.mem_append.mp hbmem with hb1 | hb2
              · rw [hlines']
                exact headerSplit_append st1.lines _ a' b
                  (hInv1.2.2.2 b pb r' a' da' hb hr' hres' hb1)
              · have hbn : b = n := by simpa using hb2
                have hb' : (n, pb) ∈ proj.phases := hbn ▸ hb
                have hpb : pb = p :=
                  mem_unique_of_nodup proj.phases hN n pb p hb' hnp
                have hr'' : r' ∈ p.inputs_from := hpb ▸ hr'
                have hres'' : resolveRef proj n r' = .ok (a', da') :=
                  hbn ▸ hres'
                have ha'names : a' ∈ names := hres r' hr'' a' da' hres''
                have ha'mem : a' ∈ memoNames st1 := hmemb a' ha'names
                have ha'proj : a' ∈ projNames proj := hInv1.2.1 a' ha'mem
                have hcnt := hInv1.2.2.1 a' ha'proj
                rw [if_pos ha'mem] at hcnt
                have hmemline : headerLine a' ∈ st1.lines := by
                  rw [headerCount] at hcnt
                  exact List.count_pos_iff.mp (by omega)
                rcases List.append_of_mem hmemline with ⟨s, t, hsplit1⟩
                have hrl : ruleLines n p = (0, "") :: headerLine n ::
                    ((1, "description = "
                        ++ (p.description.getD (n ++ " $out")))
                      :: (1, "command = " ++ p.executor.command_str)
                      :: depsLines p.executor) := rfl
                rw [hbn]
                refine ⟨s, t ++ [(0, "")],
                  ((1, "description = " ++ (p.description.getD (n ++ " $out")))
                    :: (1, "command = " ++ p.executor.command_str)
                    :: depsLines p.executor) ++ blines, ?_⟩
                rw [hlines', hsplit1, hrl]
                simp
    · -- getInputsFrom at fuel f+1
      intro proj env rank cur curp refs st st' names hN hR hA hcur hsub
        hInv h
      cases refs with
      | nil =>
        rw [getInputsFrom] at h
        simp only [Except.ok.injEq, Prod.mk.injEq] at h
        obtain ⟨h1, h2⟩ := h
        subst h2
        refine ⟨⟨[], by simp, by simp⟩, ⟨[], by simp⟩, ?_, ?_, hInv⟩
        · intro a ha; rw [← h1] at ha; simp at ha
        · intro r hr; simp at hr
      | cons r rs =>
        rw [getInputsFrom] at h
        split at h
        · cases h
        · rename_i name dep hres0
          split at h
          · cases h
          · rename_i st1 hw
            split at h
            · cases h
            · rename_i names2 st2 hgi2
              simp only [Except.ok.injEq, Prod.mk.injEq] at h
              obtain ⟨h1, h2⟩ := h
              subst h2
              have hdepmem : (name, dep) ∈ proj.phases :=
                resolveRef_ok_mem proj cur r name dep hres0
              have hrank : rank name < rank cur :=
                hA cur curp r name dep hcur (hsub r (by simp)) hres0
              rcases ih.1 proj env rank name dep st st1 hN hR hA hdepmem
                hInv hw with
                ⟨⟨dm1, hdm1, hp1⟩, ⟨dl1, hdl1⟩, hnm1, hInv1⟩
              rcases ih.2 proj env rank cur curp rs st1 st2 names2 hN hR hA
                hcur (fun r2 hr2 => hsub r2 (by simp [hr2])) hInv1
                hgi2 with
                ⟨⟨dm2, hdm2, hp2⟩, ⟨dl2, hdl2⟩, hmemb2, hres2, hInv2⟩
              refine ⟨⟨dm1 ++ dm2, ?_, ?_⟩, ⟨dl1 ++ dl2, ?_⟩, ?_, ?_,
                hInv2⟩
              · rw [hdm2, hdm1]
                simp
              · intro m hm
                rw [List.map_append] at hm
                rcases List.mem_append.mp hm with hm1 | hm2
                · exact ⟨(hp1 m hm1).1,
                    Nat.lt_of_le_of_lt (hp1 m hm1).2 hrank⟩
                · exact hp2 m hm2
              · rw [hdl2, hdl1]
                simp
              · intro a ha
                rw [← h1] at ha
                rcases List.mem_cons.mp ha with rfl | ha2
                · rw [memoNames, hdm2, List.map_append]
                  exact List.mem_append.mpr (Or.inl hnm1)
                · exact hmemb2 a ha2
              · intro r2 hr2 a da hres2'
                rw [← h1]
                rcases List.mem_cons.mp hr2 with rfl | hr2b
                · rw [hres0] at hres2'
                  have : name = a := by simpa using (Prod.ext_iff.mp
                    (by simpa using hres2' : (name, dep) = (a, da))).1
                  rw [← this]
                  exact List.mem_cons_self _ _
                · exact List.mem_cons_of_mem _
                    (hres2 r2 hr2b a da hres2')

theorem writePhases_inv (fuel : Nat) (proj : Proj) (env : Env)
    (rank : String → Nat) :
    ∀ (ps : List (String × PhaseData)) (st st' : GenState),
    (projNames proj).Nodup → RuleNamesInj proj → RankOK proj rank →
    (∀ q ∈ ps, q ∈ proj.phases) → Inv proj st →
    writePhases fuel proj env ps st = .ok st' →
    Inv proj st' ∧ (∃ dm, st'.memo = st.memo ++ dm) ∧
      ∀ q ∈ ps, q.1 ∈ memoNames st' := by
  intro ps
  induction ps with
  | nil =>
    intro st st' _ _ _ _ hInv h
    have hst : st = st' := by simpa [writePhases] using h
    subst hst
    exact ⟨hInv, ⟨[], by simp⟩, by simp⟩
  | cons q rest ih =>
    intro st st' hN hR hA hsub hInv h
    obtain ⟨n, p⟩ := q
    rw [writePhases] at h
    split at h
    · cases h
    · rename_i st1 hw
      rcases (genInv fuel).1 proj env rank n p st st1 hN hR hA
        (hsub (n, p) (by simp)) hInv hw with
        ⟨⟨dm1, hdm1, _⟩, _, hn1, hInv1⟩
      rcases ih st1 st' hN hR hA (fun q hq => hsub q (by simp [hq]))
        hInv1 h with ⟨hInv', ⟨dm2, hdm2⟩, hmem'⟩
      refine ⟨hInv', ⟨dm1 ++ dm2, by rw [hdm2, hdm1]; simp⟩, ?_⟩
      intro q hq
      rcases List.mem_cons.mp hq with rfl | hq2
      · show n ∈ memoNames st'
        rw [memoNames, hdm2, List.map_append]
        exact List.mem_append.mpr (Or.inl hn1)
      · exact hmem' q hq2

/-- C2: for a project whose phase graph is acyclic (witnessed by a rank
function decreasing along input-source edges) with duplicate-free phase
names and injective rule names, if phase B declares A as an input-source
(via a reference that resolves to A) and generation succeeds, then A's rule
header is written before B's rule header, and A's rule header appears
exactly once in the output. -/
theorem C2_topological_unique_emission
    (fuel : Nat) (proj : Proj) (env : Env) (rank : String → Nat)
    (A B : String) (pB dA : PhaseData) (r : Ref) (st : GenState)
    (hN : (projNames proj).Nodup) (hR : RuleNamesInj proj)
    (hA : RankOK proj rank)
    (hB : (B, pB) ∈ proj.phases) (hr : r ∈ pB.inputs_from)
    (hres : resolveRef proj B r = .ok (A, dA))
    (hgen : writeProject fuel proj env = .ok st) :
    headerSplit st.lines A B ∧ headerCount st.lines A = 1 := by
  have hInv0 : Inv proj (GenState.mk [] []) := by
    refine ⟨List.nodup_nil, ?_, ?_, ?_⟩
    · intro n hn
      simp [memoNames] at hn
    · intro n _
      simp [memoNames, headerCount]
    · intro b pb r' a da _ _ _ hb
      simp [memoNames] at hb
  rw [writeProject] at hgen
  rcases writePhases_inv fuel proj env rank proj.phases ⟨[], []⟩ st hN hR hA
    (fun _ hq => hq) hInv0 hgen with ⟨hInv', _, hmem'⟩
  have hBmem : B ∈ memoNames st := hmem' (B, pB) hB
  have hAmem : A ∈ memoNames st :=
    hmem' (A, dA) (resolveRef_ok_mem proj B r A dA hres)
  refine ⟨hInv'.2.2.2 B pB r A dA hB hr hres hBmem, ?_⟩
  have hc := hInv'.2.2.1 A (hInv'.2.1 A hAmem)
  rw [hc, if_pos hAmem]

def c2phaseCompile : PhaseData :=
  { inputs := ["src/a.c", "src/b.c"], inputs_from := []
  , executor := witnessExecutor, output := Option.none
  , description := Option.none }

def c2phaseLink : PhaseData :=
  { inputs := [], inputs_from := [Ref.byName "compile"]
  , executor := { output_type := "binary", output_prefix := Option.none
                , output_extension := Option.none, deps_file := Option.none
                , deps_type := Option.none, command_str := "cc $in -o $out" }
  , output := some "app", description := Option.none }

def c2projW : Proj := ⟨[("link", c2phaseLink), ("compile", c2phaseCompile)]⟩

def c2st : GenState :=
  match writeProject 10 c2projW witnessEnv with
  | .ok st => st
  | .error _ => GenState.mk [] []

def c2rank : String → Nat := fun s => if s = "link" then 1 else 0

theorem c2rankOK : RankOK c2projW c2rank := by
  intro b pb r a da hb hr hres
  rcases List.mem_cons.mp hb with he | hb2
  · have hbL : b = "link" := (Prod.ext_iff.mp he).1
    have hpL : pb = c2phaseLink := (Prod.ext_iff.mp he).2
    rw [hpL] at hr
    have hrr : r = Ref.byName "compile" := by
      simpa [c2phaseLink] using hr
    rw [hbL, hrr] at hres
    have : resolveRef c2projW "link" (Ref.byName "compile")
        = .ok ("compile", c2phaseCompile) := by decide
    rw [this] at hres
    have hsp : "compile" = a ∧ c2phaseCompile = da := by simpa using hres
    rw [← hsp.1, hbL]
    decide
  · rcases List.mem_cons.mp hb2 with he2 | hb3
    · have hpC : pb = c2phaseCompile := (Prod.ext_iff.mp he2).2
      rw [hpC] at hr
      simp [c2phaseCompile] at hr
    · simp at hb3

theorem c2ruleInj : RuleNamesInj c2projW := by
  intro m hm n hn he
  have hm2 : m = "link" ∨ m = "compile" := by
    simpa [c2projW, projNames] using hm
  have hn2 : n = "link" ∨ n = "compile" := by
    simpa [c2projW, projNames] using hn
  rcases hm2 with rfl | rfl <;> rcases hn2 with rfl | rfl <;>
    revert he <;> decide

theorem C2_topological_unique_emission_witness :
    headerSplit c2st.lines "compile" "link" ∧
      headerCount c2st.lines "compile" = 1 :=
  C2_topological_unique_emission 10 c2projW witnessEnv c2rank
    "compile" "link" c2phaseLink c2phaseCompile (Ref.byName "compile") c2st
    (by decide) c2ruleInj c2rankOK (by decide) (by decide) (by decide)
    (by decide)

def INDENT : List Char := [' ', ' ']

def pyNormEnd (len : Nat) (i : Int) : Nat :=
  if i < 0 then ((len : Int) + i).toNat else min i.toNat len

def pyNormStart (len : Nat) (i : Int) : Nat :=
  if i < 0 then ((len : Int) + i).toNat else i.toNat

def pyTakeI (l : List Char) (i : Int) : List Char :=
  l.take (pyNormEnd l.length i)

def pyDropI (l : List Char) (i : Int) : List Char :=
  l.drop (pyNormEnd l.length i)

def buggyRunAux (l : List Char) : Nat → Nat
  | 0 => 0
  | j + 1 => if l.getD (j + 1) 'A' = '$' then buggyRunAux l j + 1 else 0

def is_unescaped (l : List Char) (i : Nat) : Bool :=
  buggyRunAux l (i - 1) % 2 == 0

def runBefore (l : List Char) : Nat → Nat
  | 0 => 0
  | j + 1 => if l.getD j 'A' = '$' then runBefore l j + 1 else 0

def escapedAt (l : List Char) (i : Nat) : Bool :=
  runBefore l i % 2 == 1

def lastUnescapedSpaceAux (l : List Char) : Nat → Option Nat
  | 0 => Option.none
  | j + 1 =>
    if l.getD j 'A' == ' ' && is_unescaped l j then some j
    else lastUnescapedSpaceAux l j

def lastUnescapedSpace (l : List Char) (e : Int) : Option Nat :=
  lastUnescapedSpaceAux l (pyNormEnd l.length e)

def firstUnescapedSpaceAux (l : List Char) : Nat → Nat → Option Nat
  | _, 0 => Option.none
  | j, k + 1 =>
    if l.getD j 'A' == ' ' && is_unescaped l j then some j
    else firstUnescapedSpaceAux l (j + 1) k

def firstUnescapedSpace (l : List Char) (start : Int) : Option Nat :=
  firstUnescapedSpaceAux l (pyNormStart l.length start)
    (l.length - pyNormStart l.length start)

structure BreakEv where
  residual : List Char
  idx : Nat
  deriving DecidableEq, Repr

def wrapLoop (strict : Bool) (columns : Int) :
    Nat → List Char → Bool → List Char →
    Option (List (List Char × List Char) × List BreakEv)
  | 0, _, _, _ => Option.none
  | fuel + 1, ind, broken, line =>
    if (ind.length : Int) + line.length > columns then
      let width : Int := columns - ind.length - 2
      let space : Option Nat :=
        match lastUnescapedSpace line width with
        | some s => some s
        | Option.none =>
          if strict then Option.none else firstUnescapedSpace line width
      match space with
      | some s =>
        match wrapLoop strict columns fuel
            (if broken then ind else ind ++ INDENT) true
            (line.drop (s + 1)) with
        | Option.none => Option.none
        | some (rest, evs) =>
          some ((ind, line.take s ++ [' ', '$']) :: rest,
            BreakEv.mk line s :: evs)
      | Option.none =>
        if strict then
          match wrapLoop strict columns fuel ind broken
              (pyDropI line (width + 1)) with
          | Option.none => Option.none
          | some (rest, evs) =>
            some ((ind, pyTakeI line (width + 1) ++ ['$']) :: rest, evs)
        else some ([(ind, line)], [])
    else some ([(ind, line)], [])

def writerLine (strict : Bool) (columns : Option Int) (fuel : Nat)
    (indent : Nat) (line : List Char) :
    Option (List (List Char × List Char) × List BreakEv) :=
  let ind := List.flatten (List.replicate indent INDENT)
  match columns with
  | Option.none => some ([(ind, line)], [])
  | some c => wrapLoop strict c fuel ind false line

def stripJoin : List (List Char × List Char) → List Char
  | [] => []
  | [q] => q.2
  | q :: rest => q.2.dropLast ++ stripJoin rest

theorem getD_space_lt (l : List Char) (s : Nat) (h : l.getD s 'A' = ' ') :
    s < l.length := by
  by_cases hs : s < l.length
  · exact hs
  · rw [List.getD_eq_default l 'A' (Nat.le_of_not_lt hs)] at h
    cases h

theorem lastUnescapedSpaceAux_spec (l : List Char) :
    ∀ e s, lastUnescapedSpaceAux l e = some s →
      l.getD s 'A' = ' ' ∧ is_unescaped l s = true := by
  intro e
  induction e with
  | zero => intro s h; cases h
  | succ j ih =>
    intro s h
    rw [lastUnescapedSpaceAux] at h
    by_cases hc : (l.getD j 'A' == ' ' && is_unescaped l j) = true
    · rw [if_pos hc] at h
      have hs : j = s := by simpa using h
      subst hs
      simpa using hc
    · rw [if_neg hc] at h
      exact ih s h

theorem firstUnescapedSpaceAux_spec (l : List Char) :
    ∀ k j s, firstUnescapedSpaceAux l j k = some s →
      l.getD s 'A' = ' ' ∧ is_unescaped l s = true := by
  intro k
  induction k with
  | zero => intro j s h; cases h
  | succ k2 ih =>
    intro j s h
    rw [firstUnescapedSpaceAux] at h
    by_cases hc : (l.getD j 'A' == ' ' && is_unescaped l j) = true
    · rw [if_pos hc] at h
      have hs : j = s := by simpa using h
      subst hs
      simpa using hc
    · rw [if_neg hc] at h
      exact ih (j + 1) s h

theorem take_space_drop (l : List Char) (s : Nat)
    (hc : l.getD s 'A' = ' ') :
    l.take s ++ ' ' :: l.drop (s + 1) = l := by
  have hs : s < l.length := getD_space_lt l s hc
  conv_rhs => rw [← List.take_append_drop s l]
  rw [List.drop_eq_getElem_cons hs]
  rw [List.getD_eq_getElem l 'A' hs] at hc
  rw [hc]

theorem stripJoin_cons (q : List Char × List Char)
    (rest : List (List Char × List Char)) (h : rest ≠ []) :
    stripJoin (q :: rest) = q.2.dropLast ++ stripJoin rest := by
  cases rest with
  | nil => exact absurd rfl h
  | cons r rs => rfl

theorem buggy_vs_true (l : List Char) :
    ∀ j, buggyRunAux l j = runBefore l (j + 1) ∨
      runBefore l (j + 1) = j + 1 := by
  intro j
  induction j with
  | zero =>
    by_cases hc : l.getD 0 'A' = '$'
    · right
      rw [runBefore, if_pos hc, runBefore]
    · left
      rw [buggyRunAux, runBefore, if_neg hc]
  | succ j2 ih =>
    by_cases hc : l.getD (j2 + 1) 'A' = '$'
    · rcases ih with he | he
      · left
        rw [buggyRunAux, runBefore, if_pos hc, if_pos hc, he]
      · right
        rw [runBefore, if_pos hc, he]
    · left
      rw [buggyRunAux, runBefore, if_neg hc, if_neg hc]

theorem runBefore_all (l : List Char) :
    ∀ i, runBefore l i = i → ∀ j < i, l.getD j 'A' = '$' := by
  intro i
  induction i with
  | zero => intro _ j hj; exact absurd hj (Nat.not_lt_zero j)
  | succ i2 ih =>
    intro h j hj
    rw [runBefore] at h
    by_cases hc : l.getD i2 'A' = '$'
    · rw [if_pos hc] at h
      rcases Nat.lt_succ_iff_lt_or_eq.mp hj with hj2 | rfl
      · exact ih (Nat.succ_injective h) j hj2
      · exact hc
    · rw [if_neg hc] at h
      cases h

theorem unescaped_cases (l : List Char) (i : Nat)
    (h : is_unescaped l i = true) :
    escapedAt l i = false ∨ ∀ j < i, l.getD j 'A' = '$' := by
  cases i with
  | zero =>
    left
    rfl
  | succ j =>
    rw [is_unescaped] at h
    have hev : buggyRunAux l j % 2 = 0 := by simpa using h
    rcases buggy_vs_true l j with he | he
    · left
      rw [escapedAt]
      rw [← he]
      simp [Nat.mod_two_ne_one] at hev ⊢
      omega
    · right
      exact runBefore_all l (j + 1) he

theorem wrapLoop_correct : ∀ (fuel : Nat) (strict : Bool) (columns : Int)
    (ind : List Char) (broken : Bool) (line : List Char)
    (segs : List (List Char × List Char)) (evs : List BreakEv),
    wrapLoop strict columns fuel ind broken line = some (segs, evs) →
    segs ≠ [] ∧ stripJoin segs = line ∧
    ∀ ev ∈ evs, is_unescaped ev.residual ev.idx = true := by
  intro fuel
  induction fuel with
  | zero =>
    intro strict columns ind broken line segs evs h
    cases h
  | succ f ih =>
    intro strict columns ind broken line segs evs h
    rw [wrapLoop] at h
    by_cases hc : (ind.length : Int) + line.length > columns
    · rw [if_pos hc] at h
      simp only [] at h
      split at h
      · -- space = some s
        rename_i s hsp
        split at h
        · cases h
        · rename_i rest evs2 hrec
          have h2 : (ind, line.take s ++ [' ', '$']) :: rest = segs ∧
              BreakEv.mk line s :: evs2 = evs := by
            constructor
            · exact congrArg Prod.fst (Option.some.inj h)
            · exact congrArg Prod.snd (Option.some.inj h)
          obtain ⟨hsegs, hevs⟩ := h2
          have hspec : line.getD s 'A' = ' ' ∧ is_unescaped line s = true := by
            split at hsp
            · rename_i s2 hlast
              have hs2 : s2 = s := by simpa using hsp
              subst hs2
              exact lastUnescapedSpaceAux_spec line _ s2 hlast
            · rename_i hlast
              by_cases hst : strict = true
              · rw [if_pos hst] at hsp
                cases hsp
              · rw [if_neg hst] at hsp
                exact firstUnescapedSpaceAux_spec line _ _ s hsp
          rcases ih strict columns
              (if broken then ind else ind ++ INDENT) true
              (line.drop (s + 1)) rest evs2 hrec with ⟨hne, hsj, hevok⟩
          refine ⟨?_, ?_, ?_⟩
          · rw [← hsegs]
            exact List.cons_ne_nil _ _
          · rw [← hsegs]
            rw [stripJoin_cons _ rest hne, hsj]
            show (line.take s ++ [' ', '$']).dropLast ++ line.drop (s + 1)
              = line
            have hdl : (line.take s ++ [' ', '$']).dropLast
                = line.take s ++ [' '] := by
              have : line.take s ++ [' ', '$']
                  = (line.take s ++ [' ']) ++ ['$'] := by simp
              rw [this, List.dropLast_concat]
            rw [hdl, List.append_assoc]
            simpa using take_space_drop line s hspec.1
          · intro ev hev
            rw [← hevs] at hev
            rcases List.mem_cons.mp hev with rfl | hev2
            · exact hspec.2
            · exact hevok ev hev2
      · -- space = none
        rename_i hsp
        by_cases hst : strict = true
        · rw [if_pos hst] at h
          split at h
          · cases h
          · rename_i rest evs2 hrec
            have hsegs : (ind,
                pyTakeI line (columns - ind.length - 2 + 1) ++ ['$'])
                  :: rest = segs :=
              congrArg Prod.fst (Option.some.inj h)
            have hevs : evs2 = evs := congrArg Prod.snd (Option.some.inj h)
            rcases ih strict columns ind broken
                (pyDropI line (columns - ind.length - 2 + 1)) rest evs2
                hrec with ⟨hne, hsj, hevok⟩
            refine ⟨?_, ?_, ?_⟩
            · rw [← hsegs]
              exact List.cons_ne_nil _ _
            · rw [← hsegs]
              rw [stripJoin_cons _ rest hne, hsj]
              show (pyTakeI line (columns - ind.length - 2 + 1)
                  ++ ['$']).dropLast
                ++ pyDropI line (columns - ind.length - 2 + 1) = line
              rw [List.dropLast_concat]
              rw [pyTakeI, pyDropI]
              exact List.take_append_drop _ line
            · intro ev hev
              rw [hevs] at hevok
              exact hevok ev hev
        · rw [if_neg hst] at h
          have hsegs : [(ind, line)] = segs :=
            congrArg Prod.fst (Option.some.inj h)
          have hevs : ([] : List BreakEv) = evs :=
            congrArg Prod.snd (Option.some.inj h)
          refine ⟨?_, ?_, ?_⟩
          · rw [← hsegs]
            exact List.cons_ne_nil _ _
          · rw [← hsegs]
            rfl
          · intro ev hev
            rw [← hevs] at hev
            cases hev
    · rw [if_neg hc] at h
      have hsegs : [(ind, line)] = segs :=
        congrArg Prod.fst (Option.some.inj h)
      have hevs : ([] : List BreakEv) = evs :=
        congrArg Prod.snd (Option.some.inj h)
      refine ⟨?_, ?_, ?_⟩
      · rw [← hsegs]
        exact List.cons_ne_nil _ _
      · rw [← hsegs]
        rfl
      · intro ev hev
        rw [← hevs] at hev
        cases hev

def c4line : List Char := "$ aaaaaaaaaaaaaaaaaaaa".data

/-- C4 counterexample: the original claim says the line writer never breaks
a line at an escaped space (a space preceded by an odd run of consecutive
dollar characters). The run below, on the line consisting of a dollar, a
space and twenty letters with a column budget of 10 in non-strict mode,
breaks at index 1, a space preceded by the odd dollar run at index 0:
the escape test's loop `while dollar_index > 0` never inspects index 0 and
undercounts runs that reach the start of the line. -/
theorem C4_counterexample :
    ¬ (∀ (strict : Bool) (columns : Option Int) (fuel indent : Nat)
        (line : List Char) (segs : List (List Char × List Char))
        (evs : List BreakEv),
        writerLine strict columns fuel indent line = some (segs, evs) →
        ∀ ev ∈ evs, escapedAt ev.residual ev.idx = false) := by
  intro hall
  have hrun : writerLine false (some 10) 5 0 c4line =
      some ([([], ['$', ' ', '$']), ([' ', ' '], List.replicate 20 'a')],
        [BreakEv.mk c4line 1]) := by decide
  have hc := hall false (some 10) 5 0 c4line _ _ hrun
    (BreakEv.mk c4line 1) (by simp)
  have ht : escapedAt c4line 1 = true := by decide
  rw [hc] at ht
  cases ht

/-- C4 (amended): for every successful run of the line writer, re-joining
the emitted segments after stripping the continuation markers reproduces
the original line exactly, in both strict and non-strict modes; and every
break at a space happens at a position the writer's escape test classifies
as unescaped, which implies the space is truly unescaped (even dollar run)
except when the dollar run preceding it extends to the very start of the
residual line. -/
theorem C4_wrap_round_trip (strict : Bool) (columns : Option Int)
    (fuel indent : Nat) (line : List Char)
    (segs : List (List Char × List Char)) (evs : List BreakEv)
    (h : writerLine strict columns fuel indent line = some (segs, evs)) :
    stripJoin segs = line ∧
    ∀ ev ∈ evs, escapedAt ev.residual ev.idx = false ∨
      ∀ j < ev.idx, ev.residual.getD j 'A' = '$' := by
  rw [writerLine.eq_def] at h
  cases columns with
  | none =>
    simp only [] at h
    have hsegs : [(List.flatten (List.replicate indent INDENT), line)]
        = segs := congrArg Prod.fst (Option.some.inj h)
    have hevs : ([] : List BreakEv) = evs :=
      congrArg Prod.snd (Option.some.inj h)
    constructor
    · rw [← hsegs]
      rfl
    · intro ev hev
      rw [← hevs] at hev
      cases hev
  | some c =>
    simp only [] at h
    rcases wrapLoop_correct fuel strict c _ false line segs evs h with
      ⟨_, hsj, hevok⟩
    exact ⟨hsj, fun ev hev => unescaped_cases _ _ (hevok ev hev)⟩

theorem C4_wrap_round_trip_witness :
    stripJoin [([], ['$', ' ', '$']), ([' ', ' '], List.replicate 20 'a')]
        = c4line ∧
    ∀ ev ∈ [BreakEv.mk c4line 1],
      escapedAt ev.residual ev.idx = false ∨
        ∀ j < ev.idx, ev.residual.getD j 'A' = '$' :=
  C4_wrap_round_trip false (some 10) 5 0 c4line
    [([], ['$', ' ', '$']), ([' ', ' '], List.replicate 20 'a')]
    [BreakEv.mk c4line 1] (by decide)

end Ronin
